import Mathlib

/-!
Verification of the VibeCollector pipeline (crossref_fetcher.py, app.py,
chroma_generator.py) against its natural-language specification.

The Python code is shallowly embedded:
* JSON values become the inductive type `Json` (numbers are modelled as `Int`;
  no claim depends on fractional numeric values).
* Python dictionary/attribute operations that can raise (`d[k]`, `d.get`,
  item assignment, indexing, iteration, `str` concatenation) become functions
  into `Except Unit _`, where `.error ()` models a raised exception.
* The remote HTTP endpoints become oracles: a list of page responses for the
  Crossref works endpoint, and a function from DOI to response outcome for the
  Semantic Scholar endpoint.
* `time.time`/`sleep` become an explicit rational-valued clock threaded through
  the rate limiter.
* A file write (`json.dump(..., open(path, "w"))`) becomes recording the
  written JSON value as the new on-disk state; byte-level identity of two
  writes made by the same serializer corresponds to equality of the values.
-/

/-- A JSON value, as produced by `json.load` / consumed by `json.dump`.
Numbers are modelled as integers (no claim involves fractional values). -/
inductive Json where
  | null
  | bool (b : Bool)
  | num (n : Int)
  | str (s : String)
  | arr (elems : List Json)
  | obj (fields : List (String × Json))

/-- Python truthiness of a JSON value (`if x:`): `None`, `False`, `0`, `""`,
`[]` and `{}` are falsy, everything else is truthy. -/
def Json.truthy : Json → Bool
  | .null => false
  | .bool b => b
  | .num n => n != 0
  | .str s => s != ""
  | .arr xs => !xs.isEmpty
  | .obj kvs => !kvs.isEmpty

/-- First-match association lookup in a JSON object's field list
(Python dict keys are unique; `json.load` keeps the last duplicate, so the
field lists we manipulate have unique keys and first-match lookup agrees). -/
def jLookup : List (String × Json) → String → Option Json
  | [], _ => none
  | (k, v) :: rest, key => if k = key then some v else jLookup rest key

/-- Insert-or-replace for a JSON object's field list, with Python dict
semantics: replacing an existing key keeps its position, a new key is
appended at the end. -/
def setField : List (String × Json) → String → Json → List (String × Json)
  | [], key, v => [(key, v)]
  | (k, w) :: rest, key, v =>
      if k = key then (key, v) :: rest else (k, w) :: setField rest key v

/-- Python `d.get(key, default)`: raises (AttributeError) when the receiver is
not a dict. -/
def Json.getD (j : Json) (k : String) (d : Json) : Except Unit Json :=
  match j with
  | .obj kvs => .ok ((jLookup kvs k).getD d)
  | _ => .error ()

/-- Python `d[key]` (read): KeyError when the key is absent, TypeError when the
receiver is not a dict. -/
def Json.getItem (j : Json) (k : String) : Except Unit Json :=
  match j with
  | .obj kvs =>
      match jLookup kvs k with
      | some v => .ok v
      | none => .error ()
  | _ => .error ()

/-- Python `d[key] = v` (item assignment): raises when the receiver is not a
dict. -/
def Json.setItem (j : Json) (k : String) (v : Json) : Except Unit Json :=
  match j with
  | .obj kvs => .ok (.obj (setField kvs k v))
  | _ => .error ()

/-- Python `x[i]` for a nonnegative index: list indexing, string indexing
(which yields a one-character string), IndexError past the end, TypeError on
non-indexable values. -/
def pyIndex (j : Json) (i : Nat) : Except Unit Json :=
  match j with
  | .arr xs =>
      match xs.get? i with
      | some v => .ok v
      | none => .error ()
  | .str s =>
      match s.toList.get? i with
      | some c => .ok (.str ⟨[c]⟩)
      | none => .error ()
  | _ => .error ()

/-- Python iteration `for x in j`: lists yield their elements, strings their
characters, dicts their keys; other values raise TypeError. -/
def pyIter : Json → Except Unit (List Json)
  | .arr xs => .ok xs
  | .str s => .ok (s.toList.map (fun c => .str ⟨[c]⟩))
  | .obj kvs => .ok (kvs.map (fun kv => .str kv.1))
  | _ => .error ()

/-- Python `a + b` on JSON values: string/list concatenation and integer
addition succeed, every mixed combination raises TypeError. -/
def pyAdd (a b : Json) : Except Unit Json :=
  match a, b with
  | .str x, .str y => .ok (.str (x ++ y))
  | .arr x, .arr y => .ok (.arr (x ++ y))
  | .num x, .num y => .ok (.num (x + y))
  | _, _ => .error ()

/-- Python `x == "lit"` for a string literal: only a string compares equal. -/
def Json.eqStr (j : Json) (s : String) : Bool :=
  match j with
  | .str t => t == s
  | _ => false

/-!
## crossref_fetcher.py

`get_journal_works` is driven by the sequence of responses the Crossref works
endpoint gives to its successive page requests.  A response is either a raised
`requests.exceptions.RequestException` or a JSON body, from which the code
reads `data['message']['items']` and `data['message'].get('next-cursor')`;
we model the body by those two components directly.
-/

/-- One response of the Crossref works endpoint to one page request. -/
inductive CrossrefResponse where
  | failure
  | page (items : List Json) (nextCursor : Option Json)

/-- `CrossrefJournalFetcher.get_journal_works` (crossref_fetcher.py lines
17-58), applied to the sequence of responses the server returns: yields the
accumulated list of items together with the number of page requests made.
An exhausted response list (which none of the verified scenarios reach)
yields no further items. -/
def get_journal_works : List CrossrefResponse → List Json × Nat
  | [] => ([], 0)
  | .failure :: _ => ([], 1)
  | .page items next :: rest =>
      if items.isEmpty then ([], 1)
      else
        match next with
        | none => (items, 1)
        | some c =>
            if c.truthy then
              let r := get_journal_works rest
              (items ++ r.1, r.2 + 1)
            else (items, 1)

/-- The expression pattern `work.get(key, [''])[0] if work.get(key) else ''`
used for the `title` and `container_title` fields of `transform_work`. -/
def firstOrEmpty (work : Json) (key : String) : Except Unit Json := do
  let cond ← work.getD key .null
  if cond.truthy then do
    let v ← work.getD key (.arr [.str ""])
    pyIndex v 0
  else pure (.str "")

/-- The expression `work.get('published-print', {}).get('date-parts', [[]])[0]`
(crossref_fetcher.py line 69). -/
def publishedOf (work : Json) : Except Unit Json := do
  let pp ← work.getD "published-print" (.obj [])
  let dp ← pp.getD "date-parts" (.arr [.arr []])
  pyIndex dp 0

/-- The expression `author.get('given', '') + ' ' + author.get('family', '')`
(crossref_fetcher.py lines 70-71). -/
def authorName (a : Json) : Except Unit Json := do
  let g ← a.getD "given" (.str "")
  let f ← a.getD "family" (.str "")
  let gs ← pyAdd g (.str " ")
  pyAdd gs f

/-- Left-to-right evaluation of `authorName` over the iterated author list
(the list comprehension of crossref_fetcher.py lines 70-71); the first raise
propagates. -/
def mapAuthors : List Json → Except Unit (List Json)
  | [] => .ok []
  | a :: rest => do
      let s ← authorName a
      let l ← mapAuthors rest
      pure (s :: l)

/-- The list comprehension over `work.get('author', [])` building the authors
field (crossref_fetcher.py lines 70-71). -/
def authorsOf (work : Json) : Except Unit (List Json) := do
  let au ← work.getD "author" (.arr [])
  let lst ← pyIter au
  mapAuthors lst

/-- `CrossrefJournalFetcher.transform_work` (crossref_fetcher.py lines 60-86).
`newId` stands for `str(uuid.uuid4())`, a fresh 36-character nonempty string
supplied by the environment.  The result is `.error ()` exactly when the
Python code raises on its input. -/
def transform_work (newId : String) (work : Json) : Except Unit Json := do
  let title ← firstOrEmpty work "title"
  let abstract ← work.getD "abstract" (.str "")
  let doi ← work.getD "DOI" (.str "")
  let ty ← work.getD "type" (.str "")
  let published ← publishedOf work
  let authors ← authorsOf work
  let url ← work.getD "URL" (.str "")
  let publisher ← work.getD "publisher" (.str "")
  let containerTitle ← firstOrEmpty work "container-title"
  let volume ← work.getD "volume" (.str "")
  let issue ← work.getD "issue" (.str "")
  let pg ← work.getD "page" (.str "")
  let subject ← work.getD "subject" (.arr [])
  let language ← work.getD "language" (.str "")
  let issn ← work.getD "ISSN" (.arr [])
  let isbn ← work.getD "ISBN" (.arr [])
  let referencesCount ← work.getD "references-count" (.num 0)
  let isReferencedByCount ← work.getD "is-referenced-by-count" (.num 0)
  let score ← work.getD "score" (.num 0)
  pure (.obj [
    ("id", .str newId),
    ("title", title),
    ("abstract", abstract),
    ("metadata", .obj [
      ("doi", doi),
      ("type", ty),
      ("published", published),
      ("authors", .arr authors),
      ("url", url),
      ("publisher", publisher),
      ("container_title", containerTitle),
      ("volume", volume),
      ("issue", issue),
      ("page", pg),
      ("subject", subject),
      ("language", language),
      ("issn", issn),
      ("isbn", isbn),
      ("references_count", referencesCount),
      ("is_referenced_by_count", isReferencedByCount),
      ("score", score)])])

/-- Transform a list of fetched works in order; `ids k` is the uuid assigned
to the `k`-th work. -/
def transformAllFrom (ids : Nat → String) : Nat → List Json → Except Unit (List Json)
  | _, [] => .ok []
  | k, w :: ws => do
      let t ← transform_work (ids k) w
      let ts ← transformAllFrom ids (k + 1) ws
      pure (t :: ts)

/-- `CrossrefJournalFetcher.save_to_file` (crossref_fetcher.py lines 88-111):
iterates `get_journal_works`, transforms every yielded work, and then performs
the single file write.  `.ok l` means the destination file is written with the
JSON array `l`; `.error ()` means an exception escaped (only `transform_work`
can raise, since `get_journal_works` swallows request exceptions) and nothing
is written. -/
def save_to_file (ids : Nat → String) (responses : List CrossrefResponse) :
    Except Unit (List Json) :=
  transformAllFrom ids 0 (get_journal_works responses).1

/-!
## app.py: SemanticScholarClient rate limiter

`_wait_if_needed` (app.py lines 30-46) manipulates the list of recorded
request times and the wall clock.  We model the wall clock as an explicit
rational-valued field: reading `time.time()` returns the current clock, and
`sleep(t)` advances the clock by `t`.
-/

/-- The mutable state of `SemanticScholarClient` relevant to rate limiting
(`self.requests`), together with the wall clock. -/
structure RLState where
  requests : List ℚ
  clock : ℚ

/-- `SemanticScholarClient._wait_if_needed` (app.py lines 30-46): drop request
times older than the window, sleep until the oldest remaining request ages out
when the window is full, then record the current request using the time read
at entry (the code appends `current_time`, which was read before sleeping). -/
def wait_if_needed (rateLimit : Nat) (timeWindow : ℚ) (s : RLState) : RLState :=
  let currentTime := s.clock
  let reqs := s.requests.filter (fun reqTime => decide (currentTime - reqTime < timeWindow))
  let clock2 :=
    if rateLimit ≤ reqs.length then
      let sleepTime := reqs.headD 0 + timeWindow - currentTime
      if 0 < sleepTime then currentTime + sleepTime else currentTime
    else currentTime
  ⟨reqs ++ [currentTime], clock2⟩

/-- A synchronous sequence of calls to `_wait_if_needed`: before each call the
caller spends a nonnegative amount `d` of time, then the call runs to
completion (including any rate-limit sleep) before the next one starts. -/
def runCalls (rateLimit : Nat) (timeWindow : ℚ) : RLState → List ℚ → RLState
  | s, [] => s
  | s, d :: ds =>
      runCalls rateLimit timeWindow
        (wait_if_needed rateLimit timeWindow ⟨s.requests, s.clock + d⟩) ds

/-!
## app.py: SemanticScholarClient.get_paper_details and enrich_with_abstracts

The Semantic Scholar endpoint is modelled as an oracle mapping each queried
DOI to one of four outcomes, mirroring the branches of `get_paper_details`
(app.py lines 48-73).  A JSON file's records are mutated in place and the
whole array is rewritten to disk after each processed record; we model the
in-memory array and the on-disk array explicitly.
-/

/-- Outcome of the HTTP GET performed by `get_paper_details` for one DOI. -/
inductive ApiResult where
  | success (body : Json)
  | notFound
  | rateLimited
  | requestError

/-- The two kinds of exception `get_paper_details` can raise: the plain
`Exception` built for status 429/403, and a re-raised
`requests.exceptions.RequestException`. -/
inductive PyExc where
  | plain
  | requestException
deriving DecidableEq

/-- `SemanticScholarClient.get_paper_details` (app.py lines 48-73): 200 returns
the JSON body, 429/403 raise a plain `Exception` (which is not a
`RequestException`), any other status prints and returns `None`, and a
`RequestException` from the transport is logged and re-raised. -/
def get_paper_details : ApiResult → Except PyExc (Option Json)
  | .success body => .ok (some body)
  | .notFound => .ok none
  | .rateLimited => .error .plain
  | .requestError => .error .requestException

/-- One iteration of the initial marking loop of `enrich_with_abstracts`
(app.py lines 109-117) on one record: a record with a truthy abstract gets
`metadata.abstract_available` set to `yes`; otherwise only counters change,
but the membership test `paper.get("metadata", {}).get("abstract_available")`
is still evaluated and can raise. -/
def markPaper (p : Json) : Except Unit Json := do
  let ab ← p.getD "abstract" .null
  if ab.truthy then do
    let m ← p.getItem "metadata"
    let m2 ← m.setItem "abstract_available" (.str "yes")
    p.setItem "metadata" m2
  else do
    let md ← p.getD "metadata" (.obj [])
    let _ ← md.getD "abstract_available" .null
    pure p

/-- The initial marking loop of `enrich_with_abstracts` over a whole file
(left-to-right; the first raise aborts the file). -/
def markPass : List Json → Except Unit (List Json)
  | [] => .ok []
  | p :: rest => do
      let q ← markPaper p
      let qs ← markPass rest
      pure (q :: qs)

/-- The work-list membership test of `enrich_with_abstracts` (app.py lines
125-126): `not p.get("abstract") and p.get("metadata", {}).get("abstract_available") != "not available"`,
with Python short-circuiting (the second conjunct is evaluated only when the
abstract is falsy). -/
def needsAbstractE (p : Json) : Except Unit Bool := do
  let ab ← p.getD "abstract" .null
  if ab.truthy then pure false
  else do
    let md ← p.getD "metadata" (.obj [])
    let av ← md.getD "abstract_available" .null
    pure (!(av.eqStr "not available"))

/-- The membership flags of the work-list comprehension, in file order. -/
def needFlags : List Json → Except Unit (List Bool)
  | [] => .ok []
  | p :: rest => do
      let b ← needsAbstractE p
      let bs ← needFlags rest
      pure (b :: bs)

/-- The work list `papers_to_process`, as the list of indices (in file order)
of the records passing `needsAbstractE`. -/
def computeWorklist (papers : List Json) : Except Unit (List Nat) := do
  let flags ← needFlags papers
  pure ((flags.enum.filter Prod.snd).map Prod.fst)

/-- Read a record of the in-memory array by index. -/
def getJ (papers : List Json) (i : Nat) : Json :=
  papers.getD i .null

/-- Replace a record of the in-memory array by index (in-place mutation of one
element of the loaded JSON array; `json.load` produces no aliasing between
records, so positional update is faithful). -/
def setJ (papers : List Json) (i : Nat) (p : Json) : List Json :=
  papers.set i p

/-- State threaded through the per-record enrichment loop of one file:
the in-memory array, the on-disk array (as of the last write), the indices
already sent to `get_paper_details`, and the `new_abstracts_added` counter. -/
structure FileState where
  papers : List Json
  disk : List Json
  queries : List Nat
  added : Nat

/-- How the processing of one file ends: the loop ran to completion, a
non-request exception was caught by the per-file handler (`continue` to the
next file), or a `RequestException` caused `enrich_with_abstracts` to return. -/
inductive FileOutcome where
  | completed
  | fileError
  | apiAbort
deriving DecidableEq

/-- Result of processing one file. -/
structure FileResult where
  disk : List Json
  queries : List Nat
  added : Nat
  outcome : FileOutcome

/-- The DOI read performed for one work-list record (app.py line 138). -/
def doiOf (p : Json) : Except Unit Json := do
  let md ← p.getD "metadata" (.obj [])
  md.getD "doi" .null

/-- The mutation of one record when the lookup succeeded with a truthy
abstract (app.py lines 147-148): set the abstract, then mark available. -/
def enrichUpdate (p sp : Json) : Except Unit Json := do
  let ab ← sp.getItem "abstract"
  let p1 ← p.setItem "abstract" ab
  let m ← p1.getItem "metadata"
  let m2 ← m.setItem "abstract_available" (.str "yes")
  p1.setItem "metadata" m2

/-- The mutation of one record when the lookup found no abstract (app.py line
152): mark the record `not available`. -/
def notAvailableUpdate (p : Json) : Except Unit Json := do
  let m ← p.getItem "metadata"
  let m2 ← m.setItem "abstract_available" (.str "not available")
  p.setItem "metadata" m2

/-- Outcome of the query and mutation performed for one work-list record
whose DOI was truthy (app.py lines 143-163). -/
inductive QueryOutcome where
  | abort
  | exn
  | saved (wasAdded : Bool) (p2 : Json)

/-- What one iteration of the per-record loop does with one record. -/
inductive RecordStep where
  | noDoi
  | doiExn
  | queried (r : QueryOutcome)

/-- One iteration of the per-record loop of `enrich_with_abstracts` (app.py
lines 137-163) on record `p`: read the DOI (a raise is caught per-file), skip
silently when it is falsy, otherwise call `get_paper_details` — a
`RequestException` aborts the whole enrichment (`abort`), the plain 429/403
exception and any mutation raise go to the per-file handler (`exn`), and
otherwise the record is mutated (abstract + `yes`, or `not available`) and
the file saved (`saved`). -/
def recordStep (api : Json → ApiResult) (p : Json) : RecordStep :=
  match doiOf p with
  | .error _ => .doiExn
  | .ok doi =>
      if doi.truthy then
        .queried (match get_paper_details (api doi) with
          | .error .requestException => .abort
          | .error .plain => .exn
          | .ok sp =>
              let spVal := match sp with | none => Json.null | some body => body
              match (do
                  let branch ←
                    if spVal.truthy then do
                      let ab ← spVal.getD "abstract" .null
                      pure ab.truthy
                    else pure false
                  if branch then
                    Prod.mk true <$> enrichUpdate p spVal
                  else
                    Prod.mk false <$> notAvailableUpdate p : Except Unit (Bool × Json)) with
              | .error _ => .exn
              | .ok (wasAdded, p2) => .saved wasAdded p2)
      else .noDoi

/-- The per-record loop of `enrich_with_abstracts` (app.py lines 137-163) over
the work-list indices.  Records without a truthy DOI are skipped without a
query or a write.  After each processed record the whole array is written to
disk.  A `RequestException` returns immediately (`apiAbort`); any other
exception propagates to the per-file handler (`fileError`). -/
def processWorklist (api : Json → ApiResult) : List Nat → FileState → FileResult
  | [], st => ⟨st.disk, st.queries, st.added, .completed⟩
  | i :: rest, st =>
      match recordStep api (getJ st.papers i) with
      | .noDoi => processWorklist api rest st
      | .doiExn => ⟨st.disk, st.queries, st.added, .fileError⟩
      | .queried .abort => ⟨st.disk, st.queries ++ [i], st.added, .apiAbort⟩
      | .queried .exn => ⟨st.disk, st.queries ++ [i], st.added, .fileError⟩
      | .queried (.saved wasAdded p2) =>
          let papers2 := setJ st.papers i p2
          processWorklist api rest
            ⟨papers2, papers2, st.queries ++ [i],
              st.added + (if wasAdded then 1 else 0)⟩

/-- Processing of one JSON file by `enrich_with_abstracts` (app.py lines
100-168): run the marking loop, build the work list, and either save the
marked array at once (empty work list, lines 128-133) or run the per-record
loop starting from the not-yet-rewritten on-disk array. -/
def enrichFile (api : Json → ApiResult) (file : List Json) : FileResult :=
  match markPass file with
  | .error _ => ⟨file, [], 0, .fileError⟩
  | .ok marked =>
      match computeWorklist marked with
      | .error _ => ⟨file, [], 0, .fileError⟩
      | .ok [] => ⟨marked, [], 0, .completed⟩
      | .ok (i :: rest) => processWorklist api (i :: rest) ⟨marked, file, [], 0⟩

/-- The value returned by `enrich_with_abstracts` together with the final
on-disk state of every file: the per-file disk arrays in directory order,
whether the error payload was returned (app.py line 163), and the
`new_abstracts_added` and `errors` statistics. -/
structure EnrichResult where
  disks : List (List Json)
  isError : Bool
  newAbstracts : Nat
  errorCount : Nat

/-- `enrich_with_abstracts` (app.py lines 75-170) over the directory's files
(each given as its loaded JSON array): process files in order, count caught
per-file exceptions, and return immediately on a `RequestException`, leaving
the remaining files untouched. -/
def enrich_with_abstracts (api : Json → ApiResult) : List (List Json) → EnrichResult
  | [] => ⟨[], false, 0, 0⟩
  | f :: fs =>
      let r := enrichFile api f
      match r.outcome with
      | .apiAbort => ⟨r.disk :: fs, true, r.added, 0⟩
      | .fileError =>
          let rest := enrich_with_abstracts api fs
          ⟨r.disk :: rest.disks, rest.isError, r.added + rest.newAbstracts,
            1 + rest.errorCount⟩
      | .completed =>
          let rest := enrich_with_abstracts api fs
          ⟨r.disk :: rest.disks, rest.isError, r.added + rest.newAbstracts,
            rest.errorCount⟩

/-- The on-disk state of one file after `k` successive runs of the enrichment
pass over it (each run loads what the previous run left on disk). -/
def enrichRuns (api : Json → ApiResult) (file : List Json) : Nat → List Json
  | 0 => file
  | k + 1 => (enrichFile api (enrichRuns api file k)).disk

/-- The work list a run builds for a file, or `[]` when the run raises before
building it. -/
def runWorklist (file : List Json) : List Nat :=
  match markPass file with
  | .error _ => []
  | .ok marked =>
      match computeWorklist marked with
      | .error _ => []
      | .ok wl => wl

/-!
## chroma_generator.py: ChromaGenerator.process_papers

The vector-store insertion `self.collection.add(...)` is external; whether it
raises for the `i`-th paper is an oracle `addFails : Nat → Bool`.  Printing is
not modelled.  `str(x)` never raises; its exact text for composite values is
irrelevant to the claims and is modelled structurally.
-/

/-- Python `x or y` (used for the metadata defaults in lines 149-160). -/
def pyOr (a b : Json) : Json :=
  if a.truthy then a else b

/-- Python `str(x)` on a JSON value (total; the rendering of composite values
does not affect any claim). -/
def pyStr : Json → String
  | .null => "None"
  | .bool b => if b then "True" else "False"
  | .num n => toString n
  | .str s => s
  | .arr _ => "[...]"
  | .obj _ => "{...}"

/-- Require every iterated element to be a string (for `str.join`). -/
def strElems : List Json → Except Unit (List String)
  | [] => .ok []
  | .str s :: rest => do
      let l ← strElems rest
      pure (s :: l)
  | _ :: _ => .error ()

/-- Python `sep.join(it)`: iterate, require every element to be a string. -/
def pyJoin (sep : String) (j : Json) : Except Unit Json := do
  let xs ← pyIter j
  let strs ← strElems xs
  pure (.str (String.intercalate sep strs))

/-- The metadata dictionary built for one paper (chroma_generator.py lines
148-163); any raise inside it is caught by the per-paper handler. -/
def buildChromaMetadata (paper : Json) (title abstract : Json) : Except Unit Json := do
  let md ← paper.getD "metadata" (.obj [])
  let authorsVal ← md.getD "authors" (.arr [])
  let authors ← pyJoin ", " authorsVal
  let journal ← md.getD "container_title" (.str "")
  let publishedCond ← md.getD "published" .null
  let year ←
    if publishedCond.truthy then do
      let publishedVal ← md.getD "published" (.arr [])
      pyIndex publishedVal 0
    else pure (.str "")
  let volume ← md.getD "volume" (.str "")
  let issue ← md.getD "issue" (.str "")
  let doi ← md.getD "doi" (.str "")
  let publisher ← md.getD "publisher" (.str "")
  let url ← md.getD "url" (.str "")
  let ty ← md.getD "type" (.str "")
  let language ← md.getD "language" (.str "")
  let referencesCount ← md.getD "references_count" (.num 0)
  let isReferencedByCount ← md.getD "is_referenced_by_count" (.num 0)
  pure (.obj [
    ("title", pyOr title (.str "")),
    ("abstract", pyOr abstract (.str "")),
    ("authors", authors),
    ("journal", pyOr journal (.str "")),
    ("year", .str (pyStr year)),
    ("volume", pyOr volume (.str "")),
    ("issue", pyOr issue (.str "")),
    ("doi", pyOr doi (.str "")),
    ("publisher", pyOr publisher (.str "")),
    ("url", pyOr url (.str "")),
    ("type", pyOr ty (.str "")),
    ("language", pyOr language (.str "")),
    ("references_count", .str (pyStr referencesCount)),
    ("is_referenced_by_count", .str (pyStr isReferencedByCount))])

/-- What happened to one paper inside `process_papers`: inserted into the
collection, skipped for a missing/empty id (line 134), or skipped because an
exception was caught by the per-paper handler (line 176). -/
inductive PaperOutcome where
  | added
  | skippedNoId
  | skippedError
deriving DecidableEq, Repr

/-- The document text and metadata built for one paper with a truthy id
(chroma_generator.py lines 139-163). -/
def paperBody (paper : Json) : Except Unit (Json × Json) := do
  let title ← paper.getD "title" (.str "")
  let abstract ← paper.getD "abstract" (.str "")
  let docText ←
    if abstract.truthy then do
      let x ← pyAdd title (.str " ")
      pyAdd x abstract
    else pure title
  let md ← buildChromaMetadata paper title abstract
  pure (docText, md)

/-- The per-paper except handler's second log line (chroma_generator.py line
178): before formatting it evaluates `paper.get('id', 'unknown')` and then
`paper.get('title', 'unknown')`, left to right.  On a record that is not a
dict these `.get` calls themselves raise AttributeError, inside the handler,
where nothing catches it.  (`str(e)` and the f-string formatting of the
resulting values never raise and are not modelled.) -/
def handlerLog (paper : Json) : Except Unit Unit :=
  match paper.getD "id" (.str "unknown") with
  | .error e => .error e
  | .ok _ =>
      match paper.getD "title" (.str "unknown") with
      | .error e => .error e
      | .ok _ => .ok ()

/-- One iteration of `process_papers` (chroma_generator.py lines 130-179):
read the id, skip when falsy (no handler runs), build the document text and
metadata, call `collection.add` (which fails iff `addFails`).  A raise in the
body is caught by the per-paper handler (line 176) and becomes a logged skip
— unless the handler's own log line raises (`handlerLog`, line 178), in which
case that exception escapes the iteration: the result is `.error ()`. -/
def paperStep (paper : Json) (addFails : Bool) : Except Unit PaperOutcome :=
  match paper.getD "id" (.str "") with
  | .error _ =>
      match handlerLog paper with
      | .error e => .error e
      | .ok _ => .ok .skippedError
  | .ok pid =>
      if pid.truthy then
        match paperBody paper with
        | .error _ =>
            match handlerLog paper with
            | .error e => .error e
            | .ok _ => .ok .skippedError
        | .ok _ =>
            if addFails then
              match handlerLog paper with
              | .error e => .error e
              | .ok _ => .ok .skippedError
            else .ok .added
      else .ok .skippedNoId

/-- The `for i, paper in enumerate(papers, 1)` loop from record index `k` on:
an exception escaping an iteration (a raise inside the per-paper handler)
propagates, aborting the whole loop and leaving every remaining record
unattempted. -/
def processFrom (addFails : Nat → Bool) : Nat → List Json → Except Unit (List PaperOutcome)
  | _, [] => .ok []
  | k, paper :: rest =>
      match paperStep paper (addFails k) with
      | .error e => .error e
      | .ok o =>
          match processFrom addFails (k + 1) rest with
          | .error e => .error e
          | .ok os => .ok (o :: os)

/-- `ChromaGenerator.process_papers` (chroma_generator.py lines 125-181) over
the combined paper list: `.ok outs` is a normal return with one outcome per
input record in order (`processed_count` is the number of `added` outcomes);
`.error ()` is an exception escaping the loop, aborting the batch. -/
def process_papers (addFails : Nat → Bool) (papers : List Json) :
    Except Unit (List PaperOutcome) :=
  processFrom addFails 0 papers

/-- The test `paper.get("id", "")` being falsy (missing or empty id) without
raising, i.e. the condition of the skip at chroma_generator.py line 134. -/
def missingId (p : Json) : Bool :=
  match p.getD "id" (.str "") with
  | .ok v => !v.truthy
  | .error _ => false

/-!
## Lemmas about pagination (crossref_fetcher.py)
-/

/-- A response carrying a nonempty item batch and a truthy next-cursor: the
fetcher consumes it and requests another page. -/
def FullPage (r : CrossrefResponse) : Prop :=
  ∃ items c, r = .page items (some c) ∧ items ≠ [] ∧ c.truthy = true

/-- The items of a response sequence, concatenated in order. -/
def concatItems (responses : List CrossrefResponse) : List Json :=
  (responses.map (fun r =>
    match r with
    | .page items _ => items
    | .failure => [])).flatten

theorem get_journal_works_append (front rest : List CrossrefResponse)
    (h : ∀ r ∈ front, FullPage r) :
    get_journal_works (front ++ rest) =
      (concatItems front ++ (get_journal_works rest).1,
        (get_journal_works rest).2 + front.length) := by
  induction front with
  | nil => simp [concatItems]
  | cons r rs ih =>
      obtain ⟨items, c, rfl, hne, hc⟩ := h r (by simp)
      have hrs : ∀ x ∈ rs, FullPage x := fun x hx => h x (by simp [hx])
      have hie : items.isEmpty = false := by
        simpa [List.isEmpty_iff] using hne
      have hih := ih hrs
      simp only [List.cons_append, get_journal_works, hie, Bool.false_eq_true,
        if_false, hc, if_true]
      have hre : rs.append rest = rs ++ rest := rfl
      rw [hre, hih, Prod.mk.injEq]
      refine ⟨?_, by simp; omega⟩
      simp [concatItems, List.append_assoc]

/-- C5 (confirmed): given a source returning N full pages (nonempty items,
each with a truthy next-cursor) followed by an empty page, `get_journal_works`
performs exactly N+1 page requests, yields exactly the concatenation of the
items of the N pages, and terminates; and pagination also terminates, after
that single request, when a response omits the next-cursor field. -/
theorem c5_pagination_termination :
    (∀ (pages rest : List CrossrefResponse) (emptyCursor : Option Json),
      (∀ r ∈ pages, FullPage r) →
      get_journal_works (pages ++ .page [] emptyCursor :: rest) =
        (concatItems pages, pages.length + 1)) ∧
    (∀ (items : List Json) (rest : List CrossrefResponse),
      get_journal_works (.page items none :: rest) = (items, 1)) := by
  constructor
  · intro pages rest ec h
    rw [get_journal_works_append pages _ h]
    simp [get_journal_works, Nat.add_comm]
  · intro items rest
    cases items <;> simp [get_journal_works]

theorem c5_witness :
    get_journal_works [.page [.str "w1"] (some (.str "c1")),
        .page [.str "w2"] (some (.str "c2")), .page [] none] =
      ([.str "w1", .str "w2"], 3) ∧
    get_journal_works [.page [.str "w3"] none, .failure] = ([.str "w3"], 1) := by
  have hfp : ∀ r ∈ [CrossrefResponse.page [Json.str "w1"] (some (Json.str "c1")),
      CrossrefResponse.page [Json.str "w2"] (some (Json.str "c2"))], FullPage r := by
    intro r hr
    simp only [List.mem_cons, List.not_mem_nil, or_false] at hr
    rcases hr with rfl | rfl
    · exact ⟨[.str "w1"], .str "c1", rfl, by simp, rfl⟩
    · exact ⟨[.str "w2"], .str "c2", rfl, by simp, rfl⟩
  constructor
  · simpa [concatItems] using c5_pagination_termination.1
      [.page [.str "w1"] (some (.str "c1")), .page [.str "w2"] (some (.str "c2"))] [] none hfp
  · simpa using c5_pagination_termination.2 [.str "w3"] [.failure]

/-- The raw work used in the C1 scenario: one item fetched before the error. -/
def c1Work : Json := .obj [("DOI", .str "10.1/a")]

/-- The transform of `c1Work` under uuid `id0`. -/
def c1Record : Json := .obj [
  ("id", .str "id0"), ("title", .str ""), ("abstract", .str ""),
  ("metadata", .obj [("doi", .str "10.1/a"), ("type", .str ""), ("published", .arr []),
    ("authors", .arr []), ("url", .str ""), ("publisher", .str ""),
    ("container_title", .str ""), ("volume", .str ""), ("issue", .str ""),
    ("page", .str ""), ("subject", .arr []), ("language", .str ""),
    ("issn", .arr []), ("isbn", .arr []), ("references_count", .num 0),
    ("is_referenced_by_count", .num 0), ("score", .num 0)])]

/-- C1 (counterexample): with one full page fetched and then a request
exception on the second page request, `save_to_file` does NOT return without
writing: the generator swallows the exception (`except ... break`,
crossref_fetcher.py lines 56-58), the loop in `save_to_file` ends normally,
and the destination file is written (`.ok _`) containing exactly the item
accumulated before the error — refuting both "returns without writing" and
"all items accumulated before the error are lost". -/
theorem c1_counterexample :
    save_to_file (fun _ => "id0") [.page [c1Work] (some (.str "c")), .failure] =
      .ok [c1Record] := rfl

/-- C1 (amended): when a network/HTTP request exception occurs during
pagination, the exception terminates pagination early (after the failing
request), but `save_to_file` still writes the destination file, containing
exactly the transforms of the items accumulated before the error; nothing is
lost and nothing beyond the already-fetched pages is written. -/
theorem c1_amended (ids : Nat → String) (front rest : List CrossrefResponse)
    (h : ∀ r ∈ front, FullPage r) :
    (get_journal_works (front ++ .failure :: rest)).2 = front.length + 1 ∧
    save_to_file ids (front ++ .failure :: rest) =
      transformAllFrom ids 0 (concatItems front) := by
  have hg := get_journal_works_append front (.failure :: rest) h
  constructor
  · rw [hg]
    simp [get_journal_works, Nat.add_comm]
  · unfold save_to_file
    rw [hg]
    simp [get_journal_works]

theorem c1_witness :
    (get_journal_works [.page [c1Work] (some (.str "c")), .failure]).2 = 2 ∧
    save_to_file (fun _ => "id0") [.page [c1Work] (some (.str "c")), .failure] =
      transformAllFrom (fun _ => "id0") 0
        (concatItems [.page [c1Work] (some (.str "c"))]) := by
  have hfp : ∀ r ∈ [CrossrefResponse.page [c1Work] (some (Json.str "c"))], FullPage r := by
    intro r hr
    simp only [List.mem_singleton] at hr
    subst hr
    exact ⟨[c1Work], .str "c", rfl, by simp, rfl⟩
  simpa using c1_amended (fun _ => "id0") [.page [c1Work] (some (.str "c"))] [] hfp

/-!
## Lemmas about the rate limiter (app.py lines 30-46)
-/

/-- Invariant of the rate-limiter state after `j` synchronous calls, relative
to the time `t1` of the first call: either the clock has already passed
`t1 + timeWindow`, or all `j` recorded request times are still present with
the first call's time at the head, every recorded time lies between `t1` and
the clock, and the window is not over-full. -/
def RLInv (rateLimit : Nat) (timeWindow t1 : ℚ) (j : Nat) (s : RLState) : Prop :=
  t1 + timeWindow ≤ s.clock ∨
    (s.requests.length = j ∧ j ≤ rateLimit ∧ s.requests.head? = some t1 ∧
      ∀ x ∈ s.requests, t1 ≤ x ∧ x ≤ s.clock)

theorem wait_if_needed_clock_le (rateLimit : Nat) (timeWindow : ℚ) (u : RLState) :
    u.clock ≤ (wait_if_needed rateLimit timeWindow u).clock := by
  simp only [wait_if_needed]
  split_ifs with h1 h2
  · linarith
  · exact le_refl _
  · exact le_refl _

theorem wait_if_needed_inv {rateLimit : Nat} {timeWindow t1 : ℚ} {j : Nat} {s : RLState}
    (d : ℚ) (hd : 0 ≤ d) (hinv : RLInv rateLimit timeWindow t1 j s) :
    RLInv rateLimit timeWindow t1 (j + 1)
      (wait_if_needed rateLimit timeWindow ⟨s.requests, s.clock + d⟩) := by
  have hmono := wait_if_needed_clock_le rateLimit timeWindow ⟨s.requests, s.clock + d⟩
  rcases hinv with hdone | ⟨hlen, hjK, hhead, hall⟩
  · left
    refine le_trans ?_ hmono
    show t1 + timeWindow ≤ s.clock + d
    linarith
  by_cases hlate : t1 + timeWindow ≤ s.clock + d
  · left
    exact le_trans hlate hmono
  push_neg at hlate
  have hfilt : s.requests.filter (fun x => decide (s.clock + d - x < timeWindow)) =
      s.requests := by
    rw [List.filter_eq_self]
    intro x hx
    have hx12 := hall x hx
    simp only [decide_eq_true_eq]
    linarith [hx12.1, hx12.2]
  obtain ⟨tail, htail⟩ : ∃ tail, s.requests = t1 :: tail := by
    cases hreq : s.requests with
    | nil => rw [hreq] at hhead; simp at hhead
    | cons a tail =>
        rw [hreq] at hhead
        simp only [List.head?_cons, Option.some.injEq] at hhead
        exact ⟨tail, by rw [hhead]⟩
  by_cases hfull : rateLimit ≤ s.requests.length
  · -- the window is full: the call sleeps exactly until t1 + timeWindow
    left
    simp only [wait_if_needed, hfilt, if_pos hfull]
    rw [htail]
    simp only [List.headD_cons]
    rw [if_pos (by linarith)]
    linarith
  · -- the window is not yet full: no sleep, the request is recorded
    right
    simp only [wait_if_needed, hfilt, if_neg hfull]
    have ht1mem := hall t1 (by rw [htail]; exact List.mem_cons_self _ _)
    refine ⟨by simp [hlen], by omega, by rw [htail]; simp, ?_⟩
    intro x hx
    rcases List.mem_append.mp hx with hin | hnew
    · exact ⟨(hall x hin).1, le_trans (hall x hin).2 (by linarith)⟩
    · simp only [List.mem_singleton] at hnew
      subst hnew
      exact ⟨by linarith [ht1mem.2], le_refl _⟩

theorem runCalls_inv {rateLimit : Nat} {timeWindow t1 : ℚ} :
    ∀ (ds : List ℚ) (j : Nat) (s : RLState), (∀ x ∈ ds, 0 ≤ x) →
      RLInv rateLimit timeWindow t1 j s →
      RLInv rateLimit timeWindow t1 (j + ds.length) (runCalls rateLimit timeWindow s ds) := by
  intro ds
  induction ds with
  | nil => intro j s _ hinv; simpa [runCalls] using hinv
  | cons d rest ih =>
      intro j s hpos hinv
      have hstep := wait_if_needed_inv d (hpos d (by simp)) hinv
      have := ih (j + 1) _ (fun x hx => hpos x (by simp [hx])) hstep
      simpa [runCalls, Nat.add_comm, Nat.add_assoc, Nat.add_left_comm] using this

/-- C4 (confirmed): for a limiter with capacity `rateLimit = K > 0` per rolling
window `timeWindow = W > 0`, issuing `K + 1` synchronous requests through
`_wait_if_needed` (each preceded by a nonnegative think time, the first one
arriving at `t0 + d`) delays the `(K+1)`-th request until at least `W` has
elapsed since the 1st request: the clock when the last call returns is at
least (time of first request) + `W`. -/
theorem c4_rate_limit_delay (rateLimit : Nat) (timeWindow t0 d : ℚ) (ds : List ℚ)
    (hK : 0 < rateLimit) (hW : 0 < timeWindow) (hd : 0 ≤ d)
    (hds : ∀ x ∈ ds, 0 ≤ x) (hlen : ds.length = rateLimit) :
    t0 + d + timeWindow ≤ (runCalls rateLimit timeWindow ⟨[], t0⟩ (d :: ds)).clock := by
  have hfirst : wait_if_needed rateLimit timeWindow ⟨[], t0 + d⟩ =
      ⟨[t0 + d], t0 + d⟩ := by
    simp only [wait_if_needed, List.filter_nil]
    rw [if_neg (by simp; omega)]
    simp
  have hbase : RLInv rateLimit timeWindow (t0 + d) 1
      (wait_if_needed rateLimit timeWindow ⟨[], t0 + d⟩) := by
    rw [hfirst]
    right
    exact ⟨rfl, hK, rfl, by intro x hx; simp at hx; subst hx; exact ⟨le_refl _, le_refl _⟩⟩
  have hrun := runCalls_inv ds 1 _ hds hbase
  have hcall : runCalls rateLimit timeWindow ⟨[], t0⟩ (d :: ds) =
      runCalls rateLimit timeWindow (wait_if_needed rateLimit timeWindow ⟨[], t0 + d⟩) ds := rfl
  rw [hcall]
  rcases hrun with hdone | ⟨hlen2, hle, _, _⟩
  · exact hdone
  · omega

theorem c4_witness :
    (0 : ℚ) + 0 + 1 ≤ (runCalls 1 1 ⟨[], 0⟩ [0, 0]).clock := by
  refine c4_rate_limit_delay 1 1 0 0 [0] (by norm_num) (by norm_num) (by norm_num) ?_ rfl
  intro x hx
  simp only [List.mem_singleton] at hx
  subst hx
  exact le_refl _

/-!
## Lemmas about transform_work (crossref_fetcher.py)
-/

theorem exBind_ok {α β : Type} (a : α) (f : α → Except Unit β) :
    ((Except.ok a : Except Unit α) >>= f) = f a := rfl

theorem exBind_error {α β : Type} (f : α → Except Unit β) :
    ((Except.error () : Except Unit α) >>= f) = .error () := rfl

theorem exPure {α : Type} (a : α) : (pure a : Except Unit α) = .ok a := rfl

theorem getD_obj (kvs : List (String × Json)) (k : String) (d : Json) :
    (Json.obj kvs).getD k d = .ok ((jLookup kvs k).getD d) := rfl

/-- An acceptable value (or absence) for the `title` / `container-title`
fields: falsy, a string, or an array whose first element is a string. -/
def wfTitleVal : Option Json → Bool
  | none => true
  | some j =>
      match j with
      | .null => true
      | .bool b => !b
      | .num n => n == 0
      | .str _ => true
      | .arr xs =>
          match xs with
          | [] => true
          | x :: _ =>
              match x with
              | .str _ => true
              | _ => false
      | .obj kvs => kvs.isEmpty

/-- An acceptable value (or absence) for a field read with a string default
and expected to be a string. -/
def wfStrVal : Option Json → Bool
  | none => true
  | some (.str _) => true
  | some _ => false

/-- An acceptable value (or absence) for `published-print`: an object whose
`date-parts`, when present, is a nonempty array. -/
def wfPublishedVal : Option Json → Bool
  | none => true
  | some (.obj pkvs) =>
      match jLookup pkvs "date-parts" with
      | none => true
      | some (.arr (_ :: _)) => true
      | some _ => false
  | some _ => false

/-- An acceptable author entry: an object whose `given` and `family` fields,
when present, are strings. -/
def wfAuthorVal (a : Json) : Bool :=
  match a with
  | .obj akvs =>
      (match jLookup akvs "given" with
       | none => true
       | some (.str _) => true
       | some _ => false) &&
      (match jLookup akvs "family" with
       | none => true
       | some (.str _) => true
       | some _ => false)
  | _ => false

/-- An acceptable value (or absence) for `author`: an array of acceptable
author entries. -/
def wfAuthorsVal : Option Json → Bool
  | none => true
  | some (.arr xs) => xs.all wfAuthorVal
  | some _ => false

/-- A work item conforming to the Crossref response schema in every field
whose shape `transform_work` relies on. -/
def WellFormedWork (kvs : List (String × Json)) : Bool :=
  wfTitleVal (jLookup kvs "title") && wfStrVal (jLookup kvs "abstract") &&
    wfPublishedVal (jLookup kvs "published-print") &&
    wfAuthorsVal (jLookup kvs "author") &&
    wfTitleVal (jLookup kvs "container-title")

theorem firstOrEmpty_wf {kvs : List (String × Json)} {key : String}
    (h : wfTitleVal (jLookup kvs key) = true) :
    ∃ s, firstOrEmpty (.obj kvs) key = .ok (.str s) := by
  unfold firstOrEmpty
  cases hl : jLookup kvs key with
  | none =>
      exact ⟨"", by simp [getD_obj, hl, exBind_ok, exPure, Json.truthy]⟩
  | some j =>
      rw [hl] at h
      cases j with
      | null => exact ⟨"", by simp [getD_obj, hl, exBind_ok, exPure, Json.truthy]⟩
      | bool b =>
          have hb : b = false := by simpa [wfTitleVal] using h
          subst hb
          exact ⟨"", by simp [getD_obj, hl, exBind_ok, exPure, Json.truthy]⟩
      | num n =>
          have hn : n = 0 := by simpa [wfTitleVal] using h
          subst hn
          exact ⟨"", by simp [getD_obj, hl, exBind_ok, exPure, Json.truthy]⟩
      | str s =>
          obtain ⟨sd⟩ := s
          cases sd with
          | nil => exact ⟨"", by simp [getD_obj, hl, exBind_ok, exPure, Json.truthy]⟩
          | cons c cs =>
              refine ⟨⟨[c]⟩, ?_⟩
              simp [getD_obj, hl, exBind_ok, exPure, Json.truthy, pyIndex, String.toList]
              intro hcc
              exact absurd (congrArg String.data hcc) (by simp)
      | arr xs =>
          cases xs with
          | nil => exact ⟨"", by simp [getD_obj, hl, exBind_ok, exPure, Json.truthy]⟩
          | cons x rest =>
              cases x with
              | str s =>
                  exact ⟨s, by simp [getD_obj, hl, exBind_ok, exPure, Json.truthy, pyIndex]⟩
              | null => simp [wfTitleVal] at h
              | bool b => simp [wfTitleVal] at h
              | num n => simp [wfTitleVal] at h
              | arr ys => simp [wfTitleVal] at h
              | obj o => simp [wfTitleVal] at h
      | obj o =>
          have : o = [] := by simpa [wfTitleVal] using h
          subst this
          exact ⟨"", by simp [getD_obj, hl, exBind_ok, exPure, Json.truthy]⟩

theorem wfStrVal_getD {o : Option Json} (h : wfStrVal o = true) :
    ∃ s, o.getD (.str "") = .str s := by
  cases o with
  | none => exact ⟨"", rfl⟩
  | some j =>
      cases j with
      | str s => exact ⟨s, rfl⟩
      | null => simp [wfStrVal] at h
      | bool b => simp [wfStrVal] at h
      | num n => simp [wfStrVal] at h
      | arr xs => simp [wfStrVal] at h
      | obj o => simp [wfStrVal] at h

theorem publishedOf_wf {kvs : List (String × Json)}
    (h : wfPublishedVal (jLookup kvs "published-print") = true) :
    ∃ v, publishedOf (.obj kvs) = .ok v := by
  unfold publishedOf
  cases hl : jLookup kvs "published-print" with
  | none =>
      exact ⟨.arr [], by simp [getD_obj, hl, exBind_ok, exPure, Json.getD, jLookup, pyIndex]⟩
  | some j =>
      rw [hl] at h
      cases j with
      | obj pkvs =>
          cases hdp : jLookup pkvs "date-parts" with
          | none =>
              exact ⟨.arr [], by simp [getD_obj, hl, hdp, exBind_ok, exPure, pyIndex]⟩
          | some dj =>
              have h2 : (match jLookup pkvs "date-parts" with
                  | none => true
                  | some (Json.arr (_ :: _)) => true
                  | some _ => false) = true := h
              rw [hdp] at h2
              cases dj with
              | arr ds =>
                  cases ds with
                  | nil => simp at h2
                  | cons d rest =>
                      exact ⟨d, by simp [getD_obj, hl, hdp, exBind_ok, exPure, pyIndex]⟩
              | null => simp at h2
              | bool b => simp at h2
              | num n => simp at h2
              | str s => simp at h2
              | obj o => simp at h2
      | null => simp [wfPublishedVal] at h
      | bool b => simp [wfPublishedVal] at h
      | num n => simp [wfPublishedVal] at h
      | str s => simp [wfPublishedVal] at h
      | arr xs => simp [wfPublishedVal] at h

theorem authorName_wf {a : Json} (h : wfAuthorVal a = true) :
    ∃ s, authorName a = .ok (.str s) := by
  cases a with
  | obj akvs =>
      simp only [wfAuthorVal, Bool.and_eq_true] at h
      obtain ⟨hg, hf⟩ := h
      have hgv : wfStrVal (jLookup akvs "given") = true := by
        cases hl : jLookup akvs "given" with
        | none => rfl
        | some j => rw [hl] at hg; cases j <;> simpa [wfStrVal] using hg
      have hfv : wfStrVal (jLookup akvs "family") = true := by
        cases hl : jLookup akvs "family" with
        | none => rfl
        | some j => rw [hl] at hf; cases j <;> simpa [wfStrVal] using hf
      obtain ⟨gs, hgs⟩ := wfStrVal_getD hgv
      obtain ⟨fs, hfs⟩ := wfStrVal_getD hfv
      refine ⟨gs ++ " " ++ fs, ?_⟩
      unfold authorName
      simp [getD_obj, hgs, hfs, exBind_ok, exPure, pyAdd]
  | null => simp [wfAuthorVal] at h
  | bool b => simp [wfAuthorVal] at h
  | num n => simp [wfAuthorVal] at h
  | str s => simp [wfAuthorVal] at h
  | arr xs => simp [wfAuthorVal] at h

theorem mapAuthors_wf {xs : List Json} (h : ∀ a ∈ xs, wfAuthorVal a = true) :
    ∃ l, mapAuthors xs = .ok l := by
  induction xs with
  | nil => exact ⟨[], rfl⟩
  | cons a rest ih =>
      obtain ⟨s, hs⟩ := authorName_wf (h a (by simp))
      obtain ⟨l, hl⟩ := ih (fun x hx => h x (by simp [hx]))
      exact ⟨.str s :: l, by simp [mapAuthors, hs, hl, exBind_ok, exPure]⟩

theorem authorsOf_wf {kvs : List (String × Json)}
    (h : wfAuthorsVal (jLookup kvs "author") = true) :
    ∃ l, authorsOf (.obj kvs) = .ok l := by
  unfold authorsOf
  cases hl : jLookup kvs "author" with
  | none =>
      exact ⟨[], by simp [getD_obj, hl, exBind_ok, exPure, pyIter, mapAuthors]⟩
  | some j =>
      rw [hl] at h
      cases j with
      | arr xs =>
          have hall : ∀ a ∈ xs, wfAuthorVal a = true := by
            simpa [wfAuthorsVal, List.all_eq_true] using h
          obtain ⟨l, hml⟩ := mapAuthors_wf hall
          exact ⟨l, by simp [getD_obj, hl, exBind_ok, exPure, pyIter, hml]⟩
      | null => simp [wfAuthorsVal] at h
      | bool b => simp [wfAuthorsVal] at h
      | num n => simp [wfAuthorsVal] at h
      | str s => simp [wfAuthorsVal] at h
      | obj o => simp [wfAuthorsVal] at h

/-- C10 (counterexample): `transform_work` is NOT total over arbitrary JSON
objects: on the dictionary `\x7b"title": 5\x7d` the condition
`work.get('title')` is truthy, so the code evaluates
`work.get('title', [''])[0]`, which subscripts the integer 5 and raises
TypeError — the call raises instead of returning a record. -/
theorem c10_counterexample :
    transform_work "9b2e4860-0000-4000-8000-000000000000"
      (.obj [("title", .num 5)]) = .error () := rfl

/-- C10 (amended): `transform_work` can raise on arbitrary JSON-object input
(see the counterexample); for every input dictionary whose fields conform to
the Crossref schema shapes the code relies on (`title`/`container-title`
falsy, a string, or an array headed by a string; `abstract` absent or a
string; `published-print` an object whose `date-parts` is a nonempty array
when present; `author` an array of objects with string `given`/`family`), it
returns, without raising, a record containing exactly the keys `id`, `title`,
`abstract` and `metadata`, where `id` is the (nonempty) uuid string, `title`
and `abstract` are strings, and `metadata` contains exactly the fixed field
set in order. -/
theorem c10_amended (newId : String) (kvs : List (String × Json))
    (hid : newId ≠ "") (hwf : WellFormedWork kvs = true) :
    ∃ (t a : String) (mkvs : List (String × Json)),
      transform_work newId (.obj kvs) = .ok (.obj
        [("id", .str newId), ("title", .str t), ("abstract", .str a),
         ("metadata", .obj mkvs)]) ∧
      mkvs.map Prod.fst = ["doi", "type", "published", "authors", "url",
        "publisher", "container_title", "volume", "issue", "page", "subject",
        "language", "issn", "isbn", "references_count",
        "is_referenced_by_count", "score"] ∧
      newId ≠ "" := by
  unfold WellFormedWork at hwf
  simp only [Bool.and_eq_true] at hwf
  obtain ⟨⟨⟨⟨hT, hA⟩, hP⟩, hAu⟩, hCT⟩ := hwf
  obtain ⟨t, ht⟩ := firstOrEmpty_wf hT
  obtain ⟨a, ha0⟩ := wfStrVal_getD hA
  have ha : (Json.obj kvs).getD "abstract" (.str "") = .ok (.str a) := by
    rw [getD_obj, ha0]
  obtain ⟨pv, hpv⟩ := publishedOf_wf hP
  obtain ⟨al, hal⟩ := authorsOf_wf hAu
  obtain ⟨ct, hct⟩ := firstOrEmpty_wf hCT
  refine ⟨t, a,
    [("doi", (jLookup kvs "DOI").getD (.str "")),
     ("type", (jLookup kvs "type").getD (.str "")),
     ("published", pv),
     ("authors", .arr al),
     ("url", (jLookup kvs "URL").getD (.str "")),
     ("publisher", (jLookup kvs "publisher").getD (.str "")),
     ("container_title", .str ct),
     ("volume", (jLookup kvs "volume").getD (.str "")),
     ("issue", (jLookup kvs "issue").getD (.str "")),
     ("page", (jLookup kvs "page").getD (.str "")),
     ("subject", (jLookup kvs "subject").getD (.arr [])),
     ("language", (jLookup kvs "language").getD (.str "")),
     ("issn", (jLookup kvs "ISSN").getD (.arr [])),
     ("isbn", (jLookup kvs "ISBN").getD (.arr [])),
     ("references_count", (jLookup kvs "references-count").getD (.num 0)),
     ("is_referenced_by_count", (jLookup kvs "is-referenced-by-count").getD (.num 0)),
     ("score", (jLookup kvs "score").getD (.num 0))], ?_, by simp, hid⟩
  unfold transform_work
  simp [ht, ha, hpv, hal, hct, getD_obj, exBind_ok, exPure]

theorem c10_witness :
    WellFormedWork [("title", .arr [.str "T"]), ("DOI", .str "10.1/x"),
        ("author", .arr [.obj [("given", .str "A"), ("family", .str "B")]])] = true ∧
    ∃ (t a : String) (mkvs : List (String × Json)),
      transform_work "9b2e4860-0000-4000-8000-000000000001"
        (.obj [("title", .arr [.str "T"]), ("DOI", .str "10.1/x"),
          ("author", .arr [.obj [("given", .str "A"), ("family", .str "B")]])]) =
        .ok (.obj [("id", .str "9b2e4860-0000-4000-8000-000000000001"),
          ("title", .str t), ("abstract", .str a), ("metadata", .obj mkvs)]) ∧
      mkvs.map Prod.fst = ["doi", "type", "published", "authors", "url",
        "publisher", "container_title", "volume", "issue", "page", "subject",
        "language", "issn", "isbn", "references_count",
        "is_referenced_by_count", "score"] ∧
      ("9b2e4860-0000-4000-8000-000000000001" : String) ≠ "" := by
  refine ⟨rfl, ?_⟩
  exact c10_amended "9b2e4860-0000-4000-8000-000000000001"
    [("title", .arr [.str "T"]), ("DOI", .str "10.1/x"),
     ("author", .arr [.obj [("given", .str "A"), ("family", .str "B")]])]
    (by simp) rfl

/-!
## Lemmas about JSON object mutation
-/

theorem jLookup_setField_self (l : List (String × Json)) (k : String) (v : Json) :
    jLookup (setField l k v) k = some v := by
  induction l with
  | nil => simp [setField, jLookup]
  | cons kv rest ih =>
      obtain ⟨k0, v0⟩ := kv
      by_cases hk : k0 = k
      · subst hk
        simp [setField, jLookup]
      · simp [setField, jLookup, hk, ih]

theorem jLookup_setField_ne (l : List (String × Json)) (k k2 : String) (v : Json)
    (h : k2 ≠ k) : jLookup (setField l k v) k2 = jLookup l k2 := by
  induction l with
  | nil =>
      have hne : ¬ k = k2 := fun hh => h hh.symm
      simp [setField, jLookup, hne]
  | cons kv rest ih =>
      obtain ⟨k0, v0⟩ := kv
      by_cases hk : k0 = k
      · subst hk
        have hne : ¬ k0 = k2 := fun hh => h hh.symm
        simp [setField, jLookup, hne]
      · by_cases hk2 : k0 = k2
        · subst hk2
          simp [setField, jLookup, hk]
        · simp [setField, jLookup, hk, hk2, ih]

theorem setField_setField (l : List (String × Json)) (k : String) (v w : Json) :
    setField (setField l k v) k w = setField l k w := by
  induction l with
  | nil => simp [setField]
  | cons kv rest ih =>
      obtain ⟨k0, v0⟩ := kv
      by_cases hk : k0 = k
      · subst hk
        simp [setField]
      · simp [setField, hk, ih]

theorem setField_self (l : List (String × Json)) (k : String) (v : Json)
    (h : jLookup l k = some v) : setField l k v = l := by
  induction l with
  | nil => simp [jLookup] at h
  | cons kv rest ih =>
      obtain ⟨k0, v0⟩ := kv
      by_cases hk : k0 = k
      · subst hk
        simp [jLookup] at h
        simp [setField, h]
      · simp [jLookup, hk] at h
        simp [setField, hk, ih h]

/-!
## Lemmas about the enrichment pass (app.py lines 75-170)
-/

/-- The record's abstract value is truthy (Python `paper.get("abstract")`
succeeds and is truthy). -/
def abstractTruthy (p : Json) : Bool :=
  match p.getD "abstract" .null with
  | .ok ab => ab.truthy
  | .error _ => false

/-- The read `p.get("metadata", {}).get("abstract_available")`. -/
def markerOf (p : Json) : Except Unit Json := do
  let md ← p.getD "metadata" (.obj [])
  md.getD "abstract_available" .null

/-- The record is marked `not available`. -/
def markedNA (p : Json) : Prop :=
  markerOf p = .ok (.str "not available")

/-- The record is a fixed point of the marking loop. -/
def MarkFixed (p : Json) : Prop :=
  markPaper p = .ok p

theorem markPaper_obj {p q : Json} (h : markPaper p = .ok q) :
    ∃ kvs, p = .obj kvs := by
  cases p with
  | obj kvs => exact ⟨kvs, rfl⟩
  | null => simp [markPaper, Json.getD, exBind_error] at h
  | bool b => simp [markPaper, Json.getD, exBind_error] at h
  | num n => simp [markPaper, Json.getD, exBind_error] at h
  | str s => simp [markPaper, Json.getD, exBind_error] at h
  | arr xs => simp [markPaper, Json.getD, exBind_error] at h

theorem markPaper_of_truthy {kvs : List (String × Json)} {q : Json}
    (hab : abstractTruthy (.obj kvs) = true)
    (h : markPaper (.obj kvs) = .ok q) :
    ∃ mk, jLookup kvs "metadata" = some (.obj mk) ∧
      q = .obj (setField kvs "metadata"
        (.obj (setField mk "abstract_available" (.str "yes")))) := by
  have habt : ((jLookup kvs "abstract").getD Json.null).truthy = true := by
    simpa [abstractTruthy, Json.getD] using hab
  rw [markPaper] at h
  simp only [Json.getD, exBind_ok, habt, if_true] at h
  cases hm : jLookup kvs "metadata" with
  | none => simp [Json.getItem, hm, exBind_error] at h
  | some m =>
      cases m with
      | obj mk =>
          refine ⟨mk, rfl, ?_⟩
          simp only [Json.getItem, hm, exBind_ok, Json.setItem] at h
          exact (Except.ok.inj h).symm
      | null => simp [Json.getItem, hm, exBind_ok, exBind_error, Json.setItem] at h
      | bool b => simp [Json.getItem, hm, exBind_ok, exBind_error, Json.setItem] at h
      | num n => simp [Json.getItem, hm, exBind_ok, exBind_error, Json.setItem] at h
      | str s => simp [Json.getItem, hm, exBind_ok, exBind_error, Json.setItem] at h
      | arr xs => simp [Json.getItem, hm, exBind_ok, exBind_error, Json.setItem] at h

theorem markPaper_of_falsy {p q : Json} (hab : abstractTruthy p = false)
    (h : markPaper p = .ok q) : q = p := by
  obtain ⟨kvs, rfl⟩ := markPaper_obj h
  have habt : ((jLookup kvs "abstract").getD Json.null).truthy = false := by
    simpa [abstractTruthy, Json.getD] using hab
  rw [markPaper] at h
  simp only [getD_obj, exBind_ok, habt, Bool.false_eq_true, if_false] at h
  cases hv : ((jLookup kvs "metadata").getD (Json.obj [])).getD "abstract_available" .null with
  | ok av =>
      rw [hv] at h
      simp only [Except.map_ok, exBind_ok, exPure] at h
      exact (Except.ok.inj h).symm
  | error e =>
      cases e
      rw [hv] at h
      simp at h

theorem markPaper_of_falsy_marker {p q : Json} (hab : abstractTruthy p = false)
    (h : markPaper p = .ok q) : ∃ av, markerOf p = .ok av := by
  obtain ⟨kvs, rfl⟩ := markPaper_obj h
  have habt : ((jLookup kvs "abstract").getD Json.null).truthy = false := by
    simpa [abstractTruthy, Json.getD] using hab
  rw [markPaper] at h
  simp only [getD_obj, exBind_ok, habt, Bool.false_eq_true, if_false] at h
  cases hv : ((jLookup kvs "metadata").getD (Json.obj [])).getD "abstract_available" .null with
  | ok av =>
      refine ⟨av, ?_⟩
      rw [markerOf, getD_obj]
      simp only [exBind_ok]
      exact hv
  | error e =>
      cases e
      rw [hv] at h
      simp at h

theorem getD_ok_obj {j : Json} {k : String} {d v : Json} (h : j.getD k d = .ok v) :
    ∃ kvs, j = .obj kvs := by
  cases j with
  | obj kvs => exact ⟨kvs, rfl⟩
  | null => simp [Json.getD] at h
  | bool b => simp [Json.getD] at h
  | num n => simp [Json.getD] at h
  | str s => simp [Json.getD] at h
  | arr xs => simp [Json.getD] at h

theorem markPaper_abstract {p q : Json} (h : markPaper p = .ok q) :
    q.getD "abstract" .null = p.getD "abstract" .null := by
  obtain ⟨kvs, rfl⟩ := markPaper_obj h
  by_cases hab : abstractTruthy (.obj kvs) = true
  · obtain ⟨mk, hm, rfl⟩ := markPaper_of_truthy hab h
    rw [getD_obj, getD_obj, jLookup_setField_ne kvs "metadata" "abstract" _ (by decide)]
  · rw [markPaper_of_falsy (by simpa using hab) h]

theorem abstractTruthy_markPaper {p q : Json} (h : markPaper p = .ok q) :
    abstractTruthy q = abstractTruthy p := by
  unfold abstractTruthy
  rw [markPaper_abstract h]

theorem markPaper_idem {p q : Json} (h : markPaper p = .ok q) :
    markPaper q = .ok q := by
  obtain ⟨kvs, rfl⟩ := markPaper_obj h
  by_cases hab : abstractTruthy (.obj kvs) = true
  · have habt : ((jLookup kvs "abstract").getD Json.null).truthy = true := by
      simpa [abstractTruthy, Json.getD] using hab
    obtain ⟨mk, hm, rfl⟩ := markPaper_of_truthy hab h
    rw [markPaper]
    simp only [getD_obj, exBind_ok,
      jLookup_setField_ne kvs "metadata" "abstract" _ (by decide), habt, if_true,
      Json.getItem, jLookup_setField_self, Json.setItem, setField_setField, exBind_ok]
  · have hq := markPaper_of_falsy (by simpa using hab) h
    rw [hq]
    rw [hq] at h
    exact h

theorem markPass_cons {p : Json} {rest qs : List Json}
    (h : markPass (p :: rest) = .ok qs) :
    ∃ q qs2, markPaper p = .ok q ∧ markPass rest = .ok qs2 ∧ qs = q :: qs2 := by
  rw [markPass] at h
  cases hp : markPaper p with
  | error e =>
      cases e
      rw [hp] at h
      simp [exBind_error] at h
  | ok q =>
      rw [hp] at h
      simp only [exBind_ok] at h
      cases hr : markPass rest with
      | error e =>
          cases e
          rw [hr] at h
          simp [exBind_error] at h
      | ok qs2 =>
          rw [hr] at h
          simp only [exBind_ok, exPure] at h
          exact ⟨q, qs2, rfl, rfl, (Except.ok.inj h).symm⟩

theorem markPass_length {ps qs : List Json} (h : markPass ps = .ok qs) :
    qs.length = ps.length := by
  induction ps generalizing qs with
  | nil =>
      rw [markPass] at h
      rw [← Except.ok.inj h]
  | cons p rest ih =>
      obtain ⟨q, qs2, hp, hr, rfl⟩ := markPass_cons h
      simp [ih hr]

theorem markPass_get {ps qs : List Json} (h : markPass ps = .ok qs) :
    ∀ i, i < ps.length → markPaper (getJ ps i) = .ok (getJ qs i) := by
  induction ps generalizing qs with
  | nil => intro i hi; simp at hi
  | cons p rest ih =>
      obtain ⟨q, qs2, hp, hr, rfl⟩ := markPass_cons h
      intro i hi
      cases i with
      | zero => simpa [getJ] using hp
      | succ n => exact ih hr n (by simpa using hi)

theorem markPass_mem {ps qs : List Json} (h : markPass ps = .ok qs) :
    ∀ q ∈ qs, ∃ p ∈ ps, markPaper p = .ok q := by
  induction ps generalizing qs with
  | nil =>
      rw [markPass] at h
      rw [← Except.ok.inj h]
      intro q hq
      simp at hq
  | cons p rest ih =>
      obtain ⟨q0, qs2, hp, hr, rfl⟩ := markPass_cons h
      intro q hq
      rcases List.mem_cons.mp hq with rfl | hin
      · exact ⟨p, by simp, hp⟩
      · obtain ⟨p2, hp2, hmk⟩ := ih hr q hin
        exact ⟨p2, by simp [hp2], hmk⟩

theorem markPass_fixed {ps : List Json} (h : ∀ p ∈ ps, MarkFixed p) :
    markPass ps = .ok ps := by
  induction ps with
  | nil => rfl
  | cons p rest ih =>
      rw [markPass, h p (by simp)]
      simp only [exBind_ok]
      rw [ih (fun x hx => h x (by simp [hx]))]
      simp only [exBind_ok, exPure]

theorem markPass_goodState {ps qs : List Json} (h : markPass ps = .ok qs) :
    ∀ q ∈ qs, MarkFixed q := by
  intro q hq
  obtain ⟨p, _, hmk⟩ := markPass_mem h q hq
  exact markPaper_idem hmk

theorem needsAbstractE_of_truthy {kvs : List (String × Json)}
    (hab : abstractTruthy (.obj kvs) = true) :
    needsAbstractE (.obj kvs) = .ok false := by
  have habt : ((jLookup kvs "abstract").getD Json.null).truthy = true := by
    simpa [abstractTruthy, Json.getD] using hab
  rw [needsAbstractE]
  simp [getD_obj, exBind_ok, habt, exPure]

theorem needsAbstractE_of_falsy {kvs : List (String × Json)} {av : Json}
    (hab : abstractTruthy (.obj kvs) = false)
    (hm : markerOf (.obj kvs) = .ok av) :
    needsAbstractE (.obj kvs) = .ok (!(av.eqStr "not available")) := by
  have habt : ((jLookup kvs "abstract").getD Json.null).truthy = false := by
    simpa [abstractTruthy, Json.getD] using hab
  have hm2 : ((jLookup kvs "metadata").getD (Json.obj [])).getD
      "abstract_available" .null = .ok av := by
    rw [markerOf, getD_obj] at hm
    simpa [exBind_ok] using hm
  rw [needsAbstractE]
  simp only [getD_obj, exBind_ok, habt, Bool.false_eq_true, if_false, hm2, exPure]

theorem needsAbstractE_after_markPaper {p q : Json} (h : markPaper p = .ok q) :
    ∃ b, needsAbstractE q = .ok b := by
  by_cases hab : abstractTruthy p = true
  · have habq : abstractTruthy q = true := by rw [abstractTruthy_markPaper h, hab]
    obtain ⟨kvs, rfl⟩ := markPaper_obj h
    obtain ⟨mk, hm, rfl⟩ := markPaper_of_truthy hab h
    exact ⟨false, needsAbstractE_of_truthy habq⟩
  · have hq := markPaper_of_falsy (by simpa using hab) h
    subst hq
    obtain ⟨av, hav⟩ := markPaper_of_falsy_marker (by simpa using hab) h
    obtain ⟨kvs, rfl⟩ := markPaper_obj h
    exact ⟨_, needsAbstractE_of_falsy (by simpa using hab) hav⟩

theorem needsAbstractE_true_inv {p : Json} (h : needsAbstractE p = .ok true) :
    abstractTruthy p = false ∧
      ∃ av, markerOf p = .ok av ∧ av.eqStr "not available" = false := by
  have hobj : ∃ kvs, p = .obj kvs := by
    cases p with
    | obj kvs => exact ⟨kvs, rfl⟩
    | null => simp [needsAbstractE, Json.getD, exBind_error] at h
    | bool b => simp [needsAbstractE, Json.getD, exBind_error] at h
    | num n => simp [needsAbstractE, Json.getD, exBind_error] at h
    | str s => simp [needsAbstractE, Json.getD, exBind_error] at h
    | arr xs => simp [needsAbstractE, Json.getD, exBind_error] at h
  obtain ⟨kvs, rfl⟩ := hobj
  by_cases hab : abstractTruthy (.obj kvs) = true
  · rw [needsAbstractE_of_truthy hab] at h
    simp at h
  · have habf : abstractTruthy (.obj kvs) = false := by simpa using hab
    refine ⟨habf, ?_⟩
    have habt : ((jLookup kvs "abstract").getD Json.null).truthy = false := by
      simpa [abstractTruthy, Json.getD] using habf
    rw [needsAbstractE] at h
    simp only [getD_obj, exBind_ok, habt, Bool.false_eq_true, if_false] at h
    cases hv : ((jLookup kvs "metadata").getD (Json.obj [])).getD
        "abstract_available" .null with
    | error e =>
        cases e
        rw [hv] at h
        simp [exBind_error] at h
    | ok av =>
        rw [hv] at h
        simp only [exBind_ok, exPure] at h
        refine ⟨av, ?_, ?_⟩
        · rw [markerOf, getD_obj]
          simp only [exBind_ok]
          exact hv
        · have := Except.ok.inj h
          cases hes : av.eqStr "not available"
          · rfl
          · rw [hes] at this
            simp at this

theorem doiOf_ok {p : Json} (h : needsAbstractE p = .ok true) :
    ∃ d, doiOf p = .ok d := by
  obtain ⟨habf, av, hav, _⟩ := needsAbstractE_true_inv h
  have hobj : ∃ kvs, p = .obj kvs := by
    cases hp : p.getD "metadata" (.obj []) with
    | ok md => exact getD_ok_obj hp
    | error e =>
        cases e
        rw [markerOf, hp] at hav
        simp [exBind_error] at hav
  obtain ⟨kvs, rfl⟩ := hobj
  have hm2 : ((jLookup kvs "metadata").getD (Json.obj [])).getD
      "abstract_available" .null = .ok av := by
    rw [markerOf, getD_obj] at hav
    simpa [exBind_ok] using hav
  obtain ⟨mkvs, hmd⟩ := getD_ok_obj hm2
  refine ⟨(jLookup mkvs "doi").getD .null, ?_⟩
  rw [doiOf, getD_obj]
  simp only [exBind_ok]
  rw [hmd, getD_obj]

theorem needFlags_cons {p : Json} {rest : List Json} {flags : List Bool}
    (h : needFlags (p :: rest) = .ok flags) :
    ∃ b bs, needsAbstractE p = .ok b ∧ needFlags rest = .ok bs ∧ flags = b :: bs := by
  rw [needFlags] at h
  cases hp : needsAbstractE p with
  | error e =>
      cases e
      rw [hp] at h
      simp [exBind_error] at h
  | ok b =>
      rw [hp] at h
      simp only [exBind_ok] at h
      cases hr : needFlags rest with
      | error e =>
          cases e
          rw [hr] at h
          simp [exBind_error] at h
      | ok bs =>
          rw [hr] at h
          simp only [exBind_ok, exPure] at h
          exact ⟨b, bs, rfl, rfl, (Except.ok.inj h).symm⟩

theorem needFlags_ok {qs : List Json} (h : ∀ p ∈ qs, ∃ b, needsAbstractE p = .ok b) :
    ∃ flags, needFlags qs = .ok flags := by
  induction qs with
  | nil => exact ⟨[], rfl⟩
  | cons p rest ih =>
      obtain ⟨b, hb⟩ := h p (by simp)
      obtain ⟨bs, hbs⟩ := ih (fun x hx => h x (by simp [hx]))
      refine ⟨b :: bs, ?_⟩
      rw [needFlags, hb]
      simp only [exBind_ok]
      rw [hbs]
      simp only [exBind_ok, exPure]

theorem needFlags_length {qs : List Json} {flags : List Bool}
    (h : needFlags qs = .ok flags) : flags.length = qs.length := by
  induction qs generalizing flags with
  | nil =>
      rw [needFlags] at h
      rw [← Except.ok.inj h]
      rfl
  | cons p rest ih =>
      obtain ⟨b, bs, hp, hr, rfl⟩ := needFlags_cons h
      simp [ih hr]

theorem needFlags_get {qs : List Json} {flags : List Bool}
    (h : needFlags qs = .ok flags) :
    ∀ i, i < qs.length → needsAbstractE (getJ qs i) = .ok (flags.getD i false) := by
  induction qs generalizing flags with
  | nil => intro i hi; simp at hi
  | cons p rest ih =>
      obtain ⟨b, bs, hp, hr, rfl⟩ := needFlags_cons h
      intro i hi
      cases i with
      | zero => simpa [getJ] using hp
      | succ n => exact ih hr n (by simpa using hi)

theorem needFlags_all_false {qs : List Json}
    (h : ∀ p ∈ qs, needsAbstractE p = .ok false) :
    needFlags qs = .ok (List.replicate qs.length false) := by
  induction qs with
  | nil => rfl
  | cons p rest ih =>
      rw [needFlags, h p (by simp)]
      simp only [exBind_ok]
      rw [ih (fun x hx => h x (by simp [hx]))]
      simp only [exBind_ok, exPure, List.length_cons, List.replicate_succ]

theorem computeWorklist_of_flags {qs : List Json} {flags : List Bool}
    (h : needFlags qs = .ok flags) :
    computeWorklist qs = .ok ((flags.enum.filter Prod.snd).map Prod.fst) := by
  rw [computeWorklist, h]
  simp only [exBind_ok, exPure]

theorem computeWorklist_empty_of_false {qs : List Json}
    (h : ∀ p ∈ qs, needsAbstractE p = .ok false) :
    computeWorklist qs = .ok [] := by
  rw [computeWorklist_of_flags (needFlags_all_false h)]
  have hfil : (List.replicate qs.length false).enum.filter Prod.snd = [] := by
    rw [List.filter_eq_nil]
    intro q hq
    have hsnd : q.2 ∈ List.replicate qs.length false := by
      have := List.mem_enum_iff_get?.mp hq
      exact List.get?_mem this
    simpa using List.eq_of_mem_replicate hsnd
  rw [hfil]
  rfl

theorem mem_flagIdx {flags : List Bool} {i : Nat} :
    i ∈ (flags.enum.filter Prod.snd).map Prod.fst ↔ flags.get? i = some true := by
  constructor
  · intro hm
    simp only [List.mem_map, List.mem_filter, Prod.exists] at hm
    obtain ⟨a, b, ⟨hmem, hb⟩, rfl⟩ := hm
    have hget := List.mk_mem_enum_iff_get?.mp hmem
    have hbt : b = true := hb
    rw [hbt] at hget
    exact hget
  · intro hget
    simp only [List.mem_map, List.mem_filter, Prod.exists]
    exact ⟨i, true, ⟨List.mk_mem_enum_iff_get?.mpr hget, rfl⟩, rfl⟩

theorem flagIdx_sublist (flags : List Bool) :
    List.Sublist ((flags.enum.filter Prod.snd).map Prod.fst)
      (List.range flags.length) := by
  have h1 : List.Sublist (flags.enum.filter Prod.snd) flags.enum := List.filter_sublist _
  have h2 := h1.map Prod.fst
  rw [List.enum_map_fst] at h2
  exact h2

theorem flagIdx_nodup (flags : List Bool) :
    ((flags.enum.filter Prod.snd).map Prod.fst).Nodup :=
  (List.nodup_range flags.length).sublist (flagIdx_sublist flags)

theorem flagIdx_lt (flags : List Bool) :
    ∀ i ∈ (flags.enum.filter Prod.snd).map Prod.fst, i < flags.length :=
  fun i hi => List.mem_range.mp ((flagIdx_sublist flags).subset hi)

theorem getJ_set_ne (l : List Json) (i j : Nat) (v : Json) (h : j ≠ i) :
    getJ (setJ l i v) j = getJ l j := by
  unfold getJ setJ
  rw [List.getD_eq_getElem?_getD, List.getD_eq_getElem?_getD,
    ← List.get?_eq_getElem?, ← List.get?_eq_getElem?, List.get?_set_ne v l (Ne.symm h)]

theorem getJ_mem {l : List Json} {i : Nat} (h : i < l.length) : getJ l i ∈ l := by
  unfold getJ
  rw [List.getD_eq_getElem?_getD, List.getElem?_eq_getElem h]
  exact List.getElem_mem h

theorem getJ_eq_of_get? {l : List Json} {i : Nat} {x : Json} (h : l.get? i = some x) :
    getJ l i = x := by
  unfold getJ
  rw [List.getD_eq_getElem?_getD, ← List.get?_eq_getElem?, h]
  rfl

theorem get?_getJ {l : List Json} {i : Nat} (h : i < l.length) :
    l.get? i = some (getJ l i) := by
  unfold getJ
  rw [List.getD_eq_getElem?_getD, List.get?_eq_getElem?, List.getElem?_eq_getElem h]
  rfl

theorem recordStep_requestError {api : Json → ApiResult} {p doi : Json}
    (hdoi : doiOf p = .ok doi) (ht : doi.truthy = true)
    (ha : api doi = .requestError) :
    recordStep api p = .queried .abort := by
  unfold recordStep
  rw [hdoi]
  simp only [ht, if_true, ha]
  rfl

theorem recordStep_rateLimited {api : Json → ApiResult} {p doi : Json}
    (hdoi : doiOf p = .ok doi) (ht : doi.truthy = true)
    (ha : api doi = .rateLimited) :
    recordStep api p = .queried .exn := by
  unfold recordStep
  rw [hdoi]
  simp only [ht, if_true, ha]
  rfl

theorem recordStep_notFound {api : Json → ApiResult} {p doi p2 : Json}
    (hdoi : doiOf p = .ok doi) (ht : doi.truthy = true)
    (ha : api doi = .notFound) (hupd : notAvailableUpdate p = .ok p2) :
    recordStep api p = .queried (.saved false p2) := by
  unfold recordStep
  rw [hdoi]
  simp only [ht, if_true, ha]
  simp [get_paper_details, Json.truthy, exPure, exBind_ok, hupd]

theorem recordStep_saved_inv {api : Json → ApiResult} {p : Json} {w : Bool} {p2 : Json}
    (h : recordStep api p = .queried (.saved w p2)) :
    (∃ sp ab, sp.getD "abstract" .null = .ok ab ∧ ab.truthy = true ∧
      enrichUpdate p sp = .ok p2 ∧ w = true) ∨
    (notAvailableUpdate p = .ok p2 ∧ w = false) := by
  unfold recordStep at h
  cases hdoi : doiOf p with
  | error e => rw [hdoi] at h; simp at h
  | ok doi =>
      rw [hdoi] at h
      by_cases ht : doi.truthy = true
      · simp only [ht, if_true] at h
        cases happ : api doi with
        | requestError => rw [happ] at h; simp [get_paper_details] at h
        | rateLimited => rw [happ] at h; simp [get_paper_details] at h
        | notFound =>
            rw [happ] at h
            simp only [get_paper_details, Json.truthy, Bool.false_eq_true, if_false,
              exBind_ok, exPure] at h
            cases hupd : notAvailableUpdate p with
            | error e => rw [hupd] at h; simp at h
            | ok q =>
                rw [hupd] at h
                simp only [Except.map_ok, RecordStep.queried.injEq,
                  QueryOutcome.saved.injEq] at h
                exact Or.inr ⟨congrArg Except.ok h.2, h.1.symm⟩
        | success body =>
            rw [happ] at h
            simp only [get_paper_details] at h
            by_cases hsv : body.truthy = true
            · simp only [hsv, if_true] at h
              cases hab : body.getD "abstract" .null with
              | error e =>
                  cases e
                  rw [hab] at h
                  simp [exBind_error] at h
              | ok ab =>
                  rw [hab] at h
                  simp only [exBind_ok, exPure] at h
                  by_cases habt : ab.truthy = true
                  · simp only [habt, if_true] at h
                    cases hupd : enrichUpdate p body with
                    | error e => rw [hupd] at h; simp at h
                    | ok q =>
                        rw [hupd] at h
                        simp only [Except.map_ok, RecordStep.queried.injEq,
                          QueryOutcome.saved.injEq] at h
                        exact Or.inl ⟨body, ab, hab, habt, hupd.trans (congrArg Except.ok h.2), h.1.symm⟩
                  · simp only [habt, Bool.false_eq_true, if_false] at h
                    cases hupd : notAvailableUpdate p with
                    | error e => rw [hupd] at h; simp at h
                    | ok q =>
                        rw [hupd] at h
                        simp only [Except.map_ok, RecordStep.queried.injEq,
                          QueryOutcome.saved.injEq] at h
                        exact Or.inr ⟨congrArg Except.ok h.2, h.1.symm⟩
            · simp only [hsv, Bool.false_eq_true, if_false, exPure, exBind_ok] at h
              cases hupd : notAvailableUpdate p with
              | error e => rw [hupd] at h; simp at h
              | ok q =>
                  rw [hupd] at h
                  simp only [Except.map_ok, RecordStep.queried.injEq,
                    QueryOutcome.saved.injEq] at h
                  exact Or.inr ⟨congrArg Except.ok h.2, h.1.symm⟩
      · simp only [ht, Bool.false_eq_true, if_false] at h
        simp at h

theorem getItem_eq_getD_of_truthy {sp ab : Json}
    (h : sp.getD "abstract" .null = .ok ab) (ht : ab.truthy = true) :
    sp.getItem "abstract" = .ok ab := by
  obtain ⟨kvs, rfl⟩ := getD_ok_obj h
  rw [getD_obj] at h
  have hv := Except.ok.inj h
  cases hl : jLookup kvs "abstract" with
  | none =>
      rw [hl] at hv
      simp at hv
      rw [← hv] at ht
      simp [Json.truthy] at ht
  | some v =>
      rw [hl] at hv
      simp at hv
      simp [Json.getItem, hl, hv]

theorem notAvailableUpdate_inv {p p2 : Json} (h : notAvailableUpdate p = .ok p2) :
    ∃ kvs mk, p = .obj kvs ∧ jLookup kvs "metadata" = some (.obj mk) ∧
      p2 = .obj (setField kvs "metadata"
        (.obj (setField mk "abstract_available" (.str "not available")))) := by
  unfold notAvailableUpdate at h
  cases p with
  | obj kvs =>
      cases hm : jLookup kvs "metadata" with
      | none => simp [Json.getItem, hm, exBind_error] at h
      | some m =>
          cases m with
          | obj mk =>
              refine ⟨kvs, mk, rfl, hm, ?_⟩
              simp only [Json.getItem, hm, exBind_ok, Json.setItem] at h
              exact (Except.ok.inj h).symm
          | null => simp [Json.getItem, hm, exBind_ok, exBind_error, Json.setItem] at h
          | bool b => simp [Json.getItem, hm, exBind_ok, exBind_error, Json.setItem] at h
          | num n => simp [Json.getItem, hm, exBind_ok, exBind_error, Json.setItem] at h
          | str s => simp [Json.getItem, hm, exBind_ok, exBind_error, Json.setItem] at h
          | arr xs => simp [Json.getItem, hm, exBind_ok, exBind_error, Json.setItem] at h
  | null => simp [Json.getItem, exBind_error] at h
  | bool b => simp [Json.getItem, exBind_error] at h
  | num n => simp [Json.getItem, exBind_error] at h
  | str s => simp [Json.getItem, exBind_error] at h
  | arr xs => simp [Json.getItem, exBind_error] at h

theorem notAvailableUpdate_markFixed {p p2 : Json} (hab : abstractTruthy p = false)
    (h : notAvailableUpdate p = .ok p2) : MarkFixed p2 := by
  obtain ⟨kvs, mk, rfl, hm, rfl⟩ := notAvailableUpdate_inv h
  have habt : ((jLookup kvs "abstract").getD Json.null).truthy = false := by
    simpa [abstractTruthy, Json.getD] using hab
  unfold MarkFixed
  rw [markPaper]
  simp only [getD_obj, jLookup_setField_ne kvs "metadata" "abstract" _ (by decide),
    exBind_ok, habt, Bool.false_eq_true, if_false, jLookup_setField_self,
    Option.getD_some, Except.map_ok, exPure]

theorem enrichUpdate_inv {p sp p2 : Json} (h : enrichUpdate p sp = .ok p2) :
    ∃ kvs ab mk, p = .obj kvs ∧ sp.getItem "abstract" = .ok ab ∧
      jLookup kvs "metadata" = some (.obj mk) ∧
      p2 = .obj (setField (setField kvs "abstract" ab) "metadata"
        (.obj (setField mk "abstract_available" (.str "yes")))) := by
  unfold enrichUpdate at h
  cases hab : sp.getItem "abstract" with
  | error e =>
      cases e
      rw [hab] at h
      simp [exBind_error] at h
  | ok ab =>
      rw [hab] at h
      simp only [exBind_ok] at h
      cases p with
      | obj kvs =>
          simp only [Json.setItem, exBind_ok] at h
          have hlk : jLookup (setField kvs "abstract" ab) "metadata" =
              jLookup kvs "metadata" :=
            jLookup_setField_ne kvs "abstract" "metadata" ab (by decide)
          cases hm : jLookup kvs "metadata" with
          | none => simp [Json.getItem, hlk, hm, exBind_error] at h
          | some m =>
              cases m with
              | obj mk =>
                  refine ⟨kvs, ab, mk, rfl, rfl, hm, ?_⟩
                  simp only [Json.getItem, hlk, hm, exBind_ok, Json.setItem] at h
                  exact (Except.ok.inj h).symm
              | null => simp [Json.getItem, hlk, hm, exBind_ok, exBind_error, Json.setItem] at h
              | bool b => simp [Json.getItem, hlk, hm, exBind_ok, exBind_error, Json.setItem] at h
              | num n => simp [Json.getItem, hlk, hm, exBind_ok, exBind_error, Json.setItem] at h
              | str s => simp [Json.getItem, hlk, hm, exBind_ok, exBind_error, Json.setItem] at h
              | arr xs => simp [Json.getItem, hlk, hm, exBind_ok, exBind_error, Json.setItem] at h
      | null => simp [Json.setItem, exBind_error] at h
      | bool b => simp [Json.setItem, exBind_error] at h
      | num n => simp [Json.setItem, exBind_error] at h
      | str s => simp [Json.setItem, exBind_error] at h
      | arr xs => simp [Json.setItem, exBind_error] at h

theorem enrichUpdate_markFixed {p sp ab p2 : Json}
    (hab : sp.getD "abstract" .null = .ok ab) (habt : ab.truthy = true)
    (h : enrichUpdate p sp = .ok p2) : MarkFixed p2 := by
  obtain ⟨kvs, ab2, mk, rfl, hab2, hm, rfl⟩ := enrichUpdate_inv h
  have hab2' : ab2 = ab := by
    rw [getItem_eq_getD_of_truthy hab habt] at hab2
    exact (Except.ok.inj hab2).symm
  subst hab2'
  unfold MarkFixed
  rw [markPaper]
  have hl1 : jLookup (setField (setField kvs "abstract" ab2) "metadata"
      (Json.obj (setField mk "abstract_available" (.str "yes")))) "abstract" =
      some ab2 := by
    rw [jLookup_setField_ne _ "metadata" "abstract" _ (by decide),
      jLookup_setField_self]
  simp only [getD_obj, hl1, Option.getD_some, exBind_ok, habt, if_true,
    Json.getItem, jLookup_setField_self, Json.setItem, setField_setField]

theorem recordStep_saved_markFixed {api : Json → ApiResult} {p : Json} {w : Bool}
    {p2 : Json} (hflag : needsAbstractE p = .ok true)
    (h : recordStep api p = .queried (.saved w p2)) : MarkFixed p2 := by
  rcases recordStep_saved_inv h with ⟨sp, ab, hab, habt, hupd, _⟩ | ⟨hupd, _⟩
  · exact enrichUpdate_markFixed hab habt hupd
  · exact notAvailableUpdate_markFixed (needsAbstractE_true_inv hflag).1 hupd

theorem processWorklist_queries (api : Json → ApiResult) :
    ∀ (wl : List Nat) (st : FileState),
      ∃ extra, (processWorklist api wl st).queries = st.queries ++ extra ∧
        ∀ q ∈ extra, q ∈ wl := by
  intro wl
  induction wl with
  | nil => intro st; exact ⟨[], by simp [processWorklist], by simp⟩
  | cons i rest ih =>
      intro st
      cases hstep : recordStep api (getJ st.papers i) with
      | noDoi =>
          obtain ⟨e, he1, he2⟩ := ih st
          refine ⟨e, ?_, fun q hq => by simp [he2 q hq]⟩
          rw [processWorklist, hstep]
          exact he1
      | doiExn =>
          refine ⟨[], ?_, by simp⟩
          rw [processWorklist, hstep]
          simp
      | queried r =>
          cases r with
          | abort =>
              refine ⟨[i], ?_, by simp⟩
              rw [processWorklist, hstep]
          | exn =>
              refine ⟨[i], ?_, by simp⟩
              rw [processWorklist, hstep]
          | saved w p2 =>
              obtain ⟨e, he1, he2⟩ := ih ⟨setJ st.papers i p2, setJ st.papers i p2,
                st.queries ++ [i], st.added + (if w then 1 else 0)⟩
              refine ⟨[i] ++ e, ?_, ?_⟩
              · rw [processWorklist, hstep]
                rw [he1]
                simp
              · intro q hq
                rcases List.mem_append.mp hq with hqi | hqe
                · simp at hqi
                  simp [hqi]
                · simp [he2 q hqe]

theorem processWorklist_disk_length (api : Json → ApiResult) :
    ∀ (wl : List Nat) (st : FileState), st.papers.length = st.disk.length →
      (processWorklist api wl st).disk.length = st.disk.length := by
  intro wl
  induction wl with
  | nil => intro st _; rw [processWorklist]
  | cons i rest ih =>
      intro st hlen
      cases hstep : recordStep api (getJ st.papers i) with
      | noDoi => rw [processWorklist, hstep]; exact ih st hlen
      | doiExn => rw [processWorklist, hstep]
      | queried r =>
          cases r with
          | abort => rw [processWorklist, hstep]
          | exn => rw [processWorklist, hstep]
          | saved w p2 =>
              rw [processWorklist, hstep]
              have := ih ⟨setJ st.papers i p2, setJ st.papers i p2,
                st.queries ++ [i], st.added + (if w then 1 else 0)⟩ rfl
              rw [this]
              simp [setJ, hlen]

theorem processWorklist_untouched (api : Json → ApiResult) :
    ∀ (wl : List Nat) (st : FileState) (j : Nat), j ∉ wl →
      (processWorklist api wl st).disk.get? j = st.disk.get? j ∨
      (processWorklist api wl st).disk.get? j = st.papers.get? j := by
  intro wl
  induction wl with
  | nil => intro st j _; left; rw [processWorklist]
  | cons i rest ih =>
      intro st j hj
      have hjr : j ∉ rest := fun hh => hj (by simp [hh])
      have hji : j ≠ i := fun hh => hj (by simp [hh])
      cases hstep : recordStep api (getJ st.papers i) with
      | noDoi => rw [processWorklist, hstep]; exact ih st j hjr
      | doiExn => rw [processWorklist, hstep]; left; rfl
      | queried r =>
          cases r with
          | abort => rw [processWorklist, hstep]; left; rfl
          | exn => rw [processWorklist, hstep]; left; rfl
          | saved w p2 =>
              rw [processWorklist, hstep]
              have hset : (setJ st.papers i p2).get? j = st.papers.get? j := by
                unfold setJ
                exact List.get?_set_ne p2 st.papers (Ne.symm hji)
              rcases ih ⟨setJ st.papers i p2, setJ st.papers i p2,
                st.queries ++ [i], st.added + (if w then 1 else 0)⟩ j hjr with hd | hd
              · right
                rw [hd]
                exact hset
              · right
                rw [hd]
                exact hset

theorem processWorklist_good (api : Json → ApiResult) :
    ∀ (wl : List Nat) (st : FileState),
      wl.Nodup →
      (∀ p ∈ st.papers, MarkFixed p) →
      (∀ j ∈ wl, needsAbstractE (getJ st.papers j) = .ok true) →
      ((processWorklist api wl st).disk = st.disk ∨
        ∀ p ∈ (processWorklist api wl st).disk, MarkFixed p) := by
  intro wl
  induction wl with
  | nil => intro st _ _ _; left; rw [processWorklist]
  | cons i rest ih =>
      intro st hnd hgood hflags
      have hnd2 := List.nodup_cons.mp hnd
      cases hstep : recordStep api (getJ st.papers i) with
      | noDoi =>
          rw [processWorklist, hstep]
          exact ih st hnd2.2 hgood (fun j hj => hflags j (by simp [hj]))
      | doiExn => rw [processWorklist, hstep]; left; rfl
      | queried r =>
          cases r with
          | abort => rw [processWorklist, hstep]; left; rfl
          | exn => rw [processWorklist, hstep]; left; rfl
          | saved w p2 =>
              rw [processWorklist, hstep]
              have hfix : MarkFixed p2 :=
                recordStep_saved_markFixed (hflags i (by simp)) hstep
              have hgood2 : ∀ p ∈ setJ st.papers i p2, MarkFixed p := by
                intro p hp
                rcases List.mem_or_eq_of_mem_set hp with hin | rfl
                · exact hgood p hin
                · exact hfix
              have hflags2 : ∀ j ∈ rest,
                  needsAbstractE (getJ (setJ st.papers i p2) j) = .ok true := by
                intro j hj
                have hji : j ≠ i := fun hh => hnd2.1 (hh ▸ hj)
                rw [getJ_set_ne st.papers i j p2 hji]
                exact hflags j (by simp [hj])
              rcases ih ⟨setJ st.papers i p2, setJ st.papers i p2,
                  st.queries ++ [i], st.added + (if w then 1 else 0)⟩
                  hnd2.2 hgood2 hflags2 with hl | hr
              · right
                rw [hl]
                exact hgood2
              · right
                exact hr

theorem computeWorklist_inv {qs : List Json} {wl : List Nat}
    (h : computeWorklist qs = .ok wl) :
    ∃ flags, needFlags qs = .ok flags ∧
      wl = (flags.enum.filter Prod.snd).map Prod.fst := by
  rw [computeWorklist] at h
  cases hf : needFlags qs with
  | error e =>
      cases e
      rw [hf] at h
      simp [exBind_error] at h
  | ok flags =>
      rw [hf] at h
      simp only [exBind_ok, exPure] at h
      exact ⟨flags, rfl, (Except.ok.inj h).symm⟩

theorem worklist_flags {marked : List Json} {wl : List Nat}
    (hcw : computeWorklist marked = .ok wl) :
    wl.Nodup ∧ ∀ j ∈ wl, j < marked.length ∧
      needsAbstractE (getJ marked j) = .ok true := by
  obtain ⟨flags, hnf, hwl⟩ := computeWorklist_inv hcw
  subst hwl
  refine ⟨flagIdx_nodup flags, ?_⟩
  intro j hj
  have hg := mem_flagIdx.mp hj
  have hjl : j < flags.length := by
    by_contra hcon
    rw [List.get?_eq_none.mpr (Nat.le_of_not_lt hcon)] at hg
    simp at hg
  have hgd : flags.getD j false = true := by
    rw [List.getD_eq_getElem?_getD, ← List.get?_eq_getElem?, hg]
    rfl
  have hjm : j < marked.length := by
    rw [← needFlags_length hnf]
    exact hjl
  have hne := needFlags_get hnf j hjm
  rw [hgd] at hne
  exact ⟨hjm, hne⟩

theorem terminal_step {p q : Json}
    (hP : markedNA p ∨ abstractTruthy p = true)
    (hmk : markPaper p = .ok q) :
    needsAbstractE q = .ok false ∧ (markedNA q ∨ abstractTruthy q = true) := by
  by_cases hab : abstractTruthy p = true
  · have habq : abstractTruthy q = true := by
      rw [abstractTruthy_markPaper hmk]
      exact hab
    obtain ⟨kvs2, hq⟩ := markPaper_obj (markPaper_idem hmk)
    subst hq
    exact ⟨needsAbstractE_of_truthy habq, Or.inr habq⟩
  · have habf : abstractTruthy p = false := by simpa using hab
    have hNA : markedNA p := by
      rcases hP with h | h
      · exact h
      · exact absurd h hab
    have hqp := markPaper_of_falsy habf hmk
    subst hqp
    obtain ⟨kvs, hp⟩ := markPaper_obj hmk
    subst hp
    refine ⟨?_, Or.inl hNA⟩
    rw [needsAbstractE_of_falsy habf hNA]
    simp [Json.eqStr]

theorem enrichFile_eq_mpError {api : Json → ApiResult} {f : List Json}
    (hmp : markPass f = .error ()) :
    enrichFile api f = ⟨f, [], 0, .fileError⟩ := by
  unfold enrichFile
  rw [hmp]

theorem enrichFile_eq_of_markPass {api : Json → ApiResult} {f marked : List Json}
    (hmp : markPass f = .ok marked) :
    enrichFile api f = (match computeWorklist marked with
      | .error _ => ⟨f, [], 0, .fileError⟩
      | .ok [] => ⟨marked, [], 0, .completed⟩
      | .ok (i :: rest) => processWorklist api (i :: rest) ⟨marked, f, [], 0⟩) := by
  unfold enrichFile
  rw [hmp]

theorem enrichFile_eq_cwError {api : Json → ApiResult} {f marked : List Json}
    (hmp : markPass f = .ok marked) (hcw : computeWorklist marked = .error ()) :
    enrichFile api f = ⟨f, [], 0, .fileError⟩ := by
  rw [enrichFile_eq_of_markPass hmp, hcw]

theorem enrichFile_eq_emptyWl {api : Json → ApiResult} {f marked : List Json}
    (hmp : markPass f = .ok marked) (hcw : computeWorklist marked = .ok []) :
    enrichFile api f = ⟨marked, [], 0, .completed⟩ := by
  rw [enrichFile_eq_of_markPass hmp, hcw]

theorem enrichFile_eq_wl {api : Json → ApiResult} {f marked : List Json}
    {i : Nat} {rest : List Nat}
    (hmp : markPass f = .ok marked) (hcw : computeWorklist marked = .ok (i :: rest)) :
    enrichFile api f = processWorklist api (i :: rest) ⟨marked, f, [], 0⟩ := by
  rw [enrichFile_eq_of_markPass hmp, hcw]

theorem enrichFile_disk_length (api : Json → ApiResult) (f : List Json) :
    (enrichFile api f).disk.length = f.length := by
  cases hmp : markPass f with
  | error e =>
      cases e
      rw [enrichFile_eq_mpError hmp]
  | ok marked =>
      cases hcw : computeWorklist marked with
      | error e =>
          cases e
          rw [enrichFile_eq_cwError hmp hcw]
      | ok wl =>
          cases wl with
          | nil =>
              rw [enrichFile_eq_emptyWl hmp hcw]
              exact markPass_length hmp
          | cons i rest =>
              rw [enrichFile_eq_wl hmp hcw]
              exact processWorklist_disk_length api (i :: rest) ⟨marked, f, [], 0⟩
                (markPass_length hmp)

theorem runWorklist_eq {f marked : List Json} (hmp : markPass f = .ok marked) :
    runWorklist f = (match computeWorklist marked with
      | .error _ => []
      | .ok wl => wl) := by
  unfold runWorklist
  rw [hmp]

theorem runWorklist_eq_mpError {f : List Json} (hmp : markPass f = .error ()) :
    runWorklist f = [] := by
  unfold runWorklist
  rw [hmp]

theorem enrichFile_terminal (api : Json → ApiResult) (f : List Json) (i : Nat)
    (hi : i < f.length)
    (hP : markedNA (getJ f i) ∨ abstractTruthy (getJ f i) = true) :
    i ∉ runWorklist f ∧ i ∉ (enrichFile api f).queries ∧
      (markedNA (getJ (enrichFile api f).disk i) ∨
        abstractTruthy (getJ (enrichFile api f).disk i) = true) := by
  cases hmp : markPass f with
  | error e =>
      cases e
      rw [enrichFile_eq_mpError hmp, runWorklist_eq_mpError hmp]
      exact ⟨by simp, by simp, hP⟩
  | ok marked =>
      have hmk := markPass_get hmp i hi
      obtain ⟨hflag, hPm⟩ := terminal_step hP hmk
      have hrw := runWorklist_eq hmp
      cases hcw : computeWorklist marked with
      | error e =>
          cases e
          rw [enrichFile_eq_cwError hmp hcw, hrw, hcw]
          exact ⟨by simp, by simp, hP⟩
      | ok wl =>
          have hnotin : i ∉ wl := by
            intro hmem
            have hcwf := (worklist_flags hcw).2 i hmem
            have hcontra := hflag.symm.trans hcwf.2
            simp at hcontra
          rw [hrw, hcw]
          cases wl with
          | nil =>
              rw [enrichFile_eq_emptyWl hmp hcw]
              exact ⟨by simp, by simp, hPm⟩
          | cons i0 rest =>
              rw [enrichFile_eq_wl hmp hcw]
              refine ⟨hnotin, ?_, ?_⟩
              · obtain ⟨extra, he1, he2⟩ :=
                  processWorklist_queries api (i0 :: rest) ⟨marked, f, [], 0⟩
                rw [he1]
                intro hmem
                exact hnotin (he2 i (by simpa using hmem))
              · rcases processWorklist_untouched api (i0 :: rest) ⟨marked, f, [], 0⟩
                    i hnotin with hd | hd
                · have hgj : getJ (processWorklist api (i0 :: rest)
                      ⟨marked, f, [], 0⟩).disk i = getJ f i :=
                    getJ_eq_of_get? (by rw [hd]; exact get?_getJ hi)
                  rw [hgj]
                  exact hP
                · have hi2 : i < marked.length := by
                    rw [markPass_length hmp]
                    exact hi
                  have hgj : getJ (processWorklist api (i0 :: rest)
                      ⟨marked, f, [], 0⟩).disk i = getJ marked i :=
                    getJ_eq_of_get? (by rw [hd]; exact get?_getJ hi2)
                  rw [hgj]
                  exact hPm

/-- C2 (confirmed): a record whose `metadata.abstract_available` equals
`not available` at the start is excluded from the work list of that run and
`get_paper_details` is never invoked for it, in that run and in every
subsequent run over the saved file (each run loading what the previous run
wrote to disk). -/
theorem c2_terminal_marking (api : Json → ApiResult) (file : List Json) (i : Nat)
    (hi : i < file.length) (hNA : markedNA (getJ file i)) :
    ∀ k, i ∉ runWorklist (enrichRuns api file k) ∧
      i ∉ (enrichFile api (enrichRuns api file k)).queries := by
  have key : ∀ k, (markedNA (getJ (enrichRuns api file k) i) ∨
      abstractTruthy (getJ (enrichRuns api file k) i) = true) ∧
      (enrichRuns api file k).length = file.length := by
    intro k
    induction k with
    | zero => exact ⟨Or.inl hNA, rfl⟩
    | succ n ihn =>
        have h3 := (enrichFile_terminal api (enrichRuns api file n) i
          (by rw [ihn.2]; exact hi) ihn.1).2.2
        have hl2 := enrichFile_disk_length api (enrichRuns api file n)
        exact ⟨h3, by rw [enrichRuns, hl2, ihn.2]⟩
  intro k
  have hk := key k
  have hterm := enrichFile_terminal api (enrichRuns api file k) i
    (by rw [hk.2]; exact hi) hk.1
  exact ⟨hterm.1, hterm.2.1⟩

/-- The record used in the C2 and C7 witnesses. -/
def c2rec : Json := .obj [("id", .str "x"), ("title", .str "t"),
  ("metadata", .obj [("doi", .str "10.1/d"),
    ("abstract_available", .str "not available")])]

theorem c2_witness :
    (0 ∉ runWorklist (enrichRuns (fun _ => ApiResult.notFound) [c2rec] 0) ∧
      0 ∉ (enrichFile (fun _ => ApiResult.notFound)
        (enrichRuns (fun _ => ApiResult.notFound) [c2rec] 0)).queries) ∧
    (0 ∉ runWorklist (enrichRuns (fun _ => ApiResult.notFound) [c2rec] 3) ∧
      0 ∉ (enrichFile (fun _ => ApiResult.notFound)
        (enrichRuns (fun _ => ApiResult.notFound) [c2rec] 3)).queries) :=
  ⟨c2_terminal_marking (fun _ => ApiResult.notFound) [c2rec] 0 (by simp) rfl 0,
   c2_terminal_marking (fun _ => ApiResult.notFound) [c2rec] 0 (by simp) rfl 3⟩

/-- Every record of the file either has a truthy abstract or is marked
`not available` — the state a completed enrichment run leaves a file in. -/
def FullyEnriched (papers : List Json) : Prop :=
  ∀ p ∈ papers, abstractTruthy p = true ∨ markedNA p

theorem enrichFile_identity {S : List Json} (api : Json → ApiResult)
    (hFE : FullyEnriched S) (hG : ∀ p ∈ S, MarkFixed p) :
    enrichFile api S = ⟨S, [], 0, .completed⟩ := by
  have hmp : markPass S = .ok S := markPass_fixed hG
  have hflags : ∀ p ∈ S, needsAbstractE p = .ok false := by
    intro p hp
    obtain ⟨kvs, hpo⟩ := markPaper_obj (hG p hp)
    subst hpo
    by_cases hT : abstractTruthy (.obj kvs) = true
    · exact needsAbstractE_of_truthy hT
    · have hNA : markedNA (.obj kvs) := by
        rcases hFE _ hp with h | h
        · exact absurd h hT
        · exact h
      rw [needsAbstractE_of_falsy (by simpa using hT) hNA]
      simp [Json.eqStr]
  exact enrichFile_eq_emptyWl hmp (computeWorklist_empty_of_false hflags)

/-- C6 (confirmed): running the enrichment pass a second time on a file whose
on-disk state after the first run is fully enriched (every record has a
truthy abstract or is marked `not available`) performs no secondary-API
queries and writes back exactly the same JSON value — and since both writes
go through the same serializer, the file is byte-identical. -/
theorem c6_second_run_identity (api : Json → ApiResult) (f : List Json)
    (hFE : FullyEnriched (enrichFile api f).disk) :
    (enrichFile api (enrichFile api f).disk).queries = [] ∧
    (enrichFile api (enrichFile api f).disk).disk = (enrichFile api f).disk := by
  cases hmp : markPass f with
  | error e =>
      cases e
      rw [enrichFile_eq_mpError hmp] at hFE ⊢
      show (enrichFile api f).queries = [] ∧ (enrichFile api f).disk = f
      rw [enrichFile_eq_mpError hmp]
      exact ⟨rfl, rfl⟩
  | ok marked =>
      have hgood : ∀ p ∈ marked, MarkFixed p := markPass_goodState hmp
      cases hcw : computeWorklist marked with
      | error e =>
          cases e
          rw [enrichFile_eq_cwError hmp hcw] at hFE ⊢
          show (enrichFile api f).queries = [] ∧ (enrichFile api f).disk = f
          rw [enrichFile_eq_cwError hmp hcw]
          exact ⟨rfl, rfl⟩
      | ok wl =>
          cases wl with
          | nil =>
              rw [enrichFile_eq_emptyWl hmp hcw] at hFE ⊢
              rw [enrichFile_identity api hFE hgood]
              exact ⟨rfl, rfl⟩
          | cons i0 rest =>
              rw [enrichFile_eq_wl hmp hcw] at hFE ⊢
              obtain ⟨hnd, hwlp⟩ := worklist_flags hcw
              have hflags : ∀ j ∈ (i0 :: rest),
                  needsAbstractE (getJ marked j) = .ok true :=
                fun j hj => (hwlp j hj).2
              rcases processWorklist_good api (i0 :: rest) ⟨marked, f, [], 0⟩
                  hnd hgood hflags with hl | hgood2
              · -- no save happened: the disk is still the original file, and a
                -- nonempty work list contradicts the file being fully enriched
                exfalso
                have hdf : (processWorklist api (i0 :: rest)
                    ⟨marked, f, [], 0⟩).disk = f := hl
                rw [hdf] at hFE
                have hi0 := hwlp i0 (by simp)
                have hi0f : i0 < f.length := by
                  rw [← markPass_length hmp]
                  exact hi0.1
                obtain ⟨habf, av, hmav, havne⟩ := needsAbstractE_true_inv hi0.2
                have hmk := markPass_get hmp i0 hi0f
                have habff : abstractTruthy (getJ f i0) = false := by
                  rw [← abstractTruthy_markPaper hmk]
                  exact habf
                have hqp := markPaper_of_falsy habff hmk
                rcases hFE (getJ f i0) (getJ_mem hi0f) with hT | hNA
                · rw [hT] at habff
                  cases habff
                · rw [← hqp] at hNA
                  rw [hNA] at hmav
                  have hav := Except.ok.inj hmav
                  rw [← hav] at havne
                  simp [Json.eqStr] at havne
              · have hgood3 : ∀ p ∈ (processWorklist api (i0 :: rest)
                    ⟨marked, f, [], 0⟩).disk, MarkFixed p := hgood2
                rw [enrichFile_identity api hFE hgood3]
                exact ⟨rfl, rfl⟩

/-- The record used in the C6 witness: empty-string abstract, DOI present. -/
def c6file : Json := .obj [("id", .str "x"), ("title", .str "t"),
  ("abstract", .str ""), ("metadata", .obj [("doi", .str "10.1/d")])]

/-- The C6 witness record after the first run marked it `not available`. -/
def c6marked : Json := .obj [("id", .str "x"), ("title", .str "t"),
  ("abstract", .str ""), ("metadata", .obj [("doi", .str "10.1/d"),
    ("abstract_available", .str "not available")])]

theorem c6_witness :
    (enrichFile (fun _ => ApiResult.notFound)
      (enrichFile (fun _ => ApiResult.notFound) [c6file]).disk).queries = [] ∧
    (enrichFile (fun _ => ApiResult.notFound)
      (enrichFile (fun _ => ApiResult.notFound) [c6file]).disk).disk =
      (enrichFile (fun _ => ApiResult.notFound) [c6file]).disk := by
  refine c6_second_run_identity (fun _ => ApiResult.notFound) [c6file] ?_
  intro p hp
  have hdisk : (enrichFile (fun _ => ApiResult.notFound) [c6file]).disk =
      [c6marked] := rfl
  rw [hdisk] at hp
  simp only [List.mem_singleton] at hp
  subst hp
  exact Or.inr rfl

/-- C7 (counterexample): a record whose abstract field is present but equal to
the empty string is NOT treated as enriched: `not paper.get("abstract")` is
true for the empty string (Python truthiness), so the record with
`"abstract": ""` and no `not available` marker IS placed on the work list
(index 0) and IS queried against the secondary API — refuting the claim that
an empty string counts as a valid enriched value. -/
theorem c7_counterexample :
    runWorklist [c6file] = [0] ∧
    (enrichFile (fun _ => ApiResult.notFound) [c6file]).queries = [0] :=
  ⟨rfl, rfl⟩

/-- C7 (amended): a record whose abstract field equals the empty string counts
as NOT yet enriched — the work-list test uses Python truthiness, under which
the empty string is indistinguishable from an absent abstract — so whenever
the pass reaches the work-list computation, such a record (not marked
`not available`) IS placed on the work list and hence re-queried when its DOI
is truthy. -/
theorem c7_empty_abstract_requeried (papers marked : List Json) (wl : List Nat)
    (i : Nat) (hmp : markPass papers = .ok marked)
    (hcw : computeWorklist marked = .ok wl) (hi : i < papers.length)
    (hab : (getJ papers i).getD "abstract" .null = .ok (.str ""))
    (hNA : ¬ markedNA (getJ papers i)) :
    i ∈ wl := by
  have habf : abstractTruthy (getJ papers i) = false := by
    unfold abstractTruthy
    rw [hab]
    rfl
  have hmk := markPass_get hmp i hi
  have heq := markPass_get hmp i hi
  have hqp := markPaper_of_falsy habf hmk
  obtain ⟨av, hav⟩ := markPaper_of_falsy_marker habf hmk
  have havne : av.eqStr "not available" = false := by
    cases hes : av.eqStr "not available"
    · rfl
    · exfalso
      apply hNA
      have hava : av = .str "not available" := by
        cases av with
        | str t =>
            simp [Json.eqStr] at hes
            rw [hes]
        | null => simp [Json.eqStr] at hes
        | bool b => simp [Json.eqStr] at hes
        | num n => simp [Json.eqStr] at hes
        | arr xs => simp [Json.eqStr] at hes
        | obj o => simp [Json.eqStr] at hes
      rw [hava] at hav
      exact hav
  obtain ⟨kvs, hk⟩ := markPaper_obj hmk
  have hflag : needsAbstractE (getJ marked i) = .ok true := by
    rw [hqp, hk]
    rw [needsAbstractE_of_falsy (by rw [← hk]; exact habf) (by rw [← hk]; exact hav)]
    rw [havne]
    rfl
  obtain ⟨flags, hnf, hwl⟩ := computeWorklist_inv hcw
  subst hwl
  apply mem_flagIdx.mpr
  have hi2 : i < marked.length := by
    rw [markPass_length hmp]
    exact hi
  have hg := needFlags_get hnf i hi2
  have hgd : flags.getD i false = true :=
    (Except.ok.inj (hflag.symm.trans hg)).symm
  have hif : i < flags.length := by
    rw [needFlags_length hnf]
    exact hi2
  have hgs : flags.get? i = some (flags.getD i false) := by
    rw [List.getD_eq_getElem?_getD, ← List.get?_eq_getElem?]
    cases hgq : flags.get? i with
    | none =>
        rw [List.get?_eq_none] at hgq
        omega
    | some b => rfl
  rw [hgs, hgd]

theorem c7_witness : (0 : Nat) ∈ ([0] : List Nat) := by
  refine c7_empty_abstract_requeried [c6file] [c6file] [0] 0 rfl rfl (by simp) rfl ?_
  intro hcon
  have hcon2 : (Except.ok Json.null : Except Unit Json) =
      Except.ok (Json.str "not available") := hcon
  exact absurd (Except.ok.inj hcon2) (by simp)

theorem enrich_cons_abort {api : Json → ApiResult} {f : List Json}
    {fs : List (List Json)} (h : (enrichFile api f).outcome = .apiAbort) :
    enrich_with_abstracts api (f :: fs) =
      ⟨(enrichFile api f).disk :: fs, true, (enrichFile api f).added, 0⟩ := by
  simp only [enrich_with_abstracts, h]

theorem enrich_cons_continue {api : Json → ApiResult} {f : List Json}
    {fs : List (List Json)} (h : (enrichFile api f).outcome ≠ .apiAbort) :
    enrich_with_abstracts api (f :: fs) =
      ⟨(enrichFile api f).disk :: (enrich_with_abstracts api fs).disks,
        (enrich_with_abstracts api fs).isError,
        (enrichFile api f).added + (enrich_with_abstracts api fs).newAbstracts,
        (if (enrichFile api f).outcome = .fileError then 1 else 0) +
          (enrich_with_abstracts api fs).errorCount⟩ := by
  cases ho : (enrichFile api f).outcome with
  | apiAbort => exact absurd ho h
  | fileError => simp only [enrich_with_abstracts, ho, if_true]
  | completed =>
      simp only [enrich_with_abstracts, ho]
      simp

/-- C3 (confirmed): when a `RequestException` is raised by the secondary API
while processing file `f` (outcome `apiAbort`), `enrich_with_abstracts`
returns immediately with the error payload and the statistics accumulated so
far; files processed before `f` keep exactly their own processing results,
the files after `f` are left untouched, and `f`'s on-disk content is the
array as of the last per-record save (by construction of the model, the disk
is updated exactly at the per-record writes of app.py lines 156-157) — in
particular still a well-formed array of the same record count. -/
theorem c3_request_exception_aborts (api : Json → ApiResult)
    (fs : List (List Json)) (f : List Json) (rest : List (List Json))
    (hpre : ∀ g ∈ fs, (enrichFile api g).outcome ≠ .apiAbort)
    (habort : (enrichFile api f).outcome = .apiAbort) :
    enrich_with_abstracts api (fs ++ f :: rest) =
      ⟨(fs.map (fun g => (enrichFile api g).disk)) ++
          (enrichFile api f).disk :: rest,
        true,
        (fs.map (fun g => (enrichFile api g).added)).sum +
          (enrichFile api f).added,
        (fs.filter (fun g =>
          decide ((enrichFile api g).outcome = .fileError))).length⟩ ∧
    (enrichFile api f).disk.length = f.length := by
  refine ⟨?_, enrichFile_disk_length api f⟩
  revert hpre
  induction fs with
  | nil =>
      intro _
      rw [List.nil_append, enrich_cons_abort habort]
      simp
  | cons g gs ih =>
      intro hpre
      have hg := hpre g (by simp)
      rw [List.cons_append, enrich_cons_continue hg,
        ih (fun x hx => hpre x (by simp [hx]))]
      rw [EnrichResult.mk.injEq]
      refine ⟨by simp, rfl, by simp only [List.map_cons, List.sum_cons]; omega, ?_⟩
      by_cases hfe : (enrichFile api g).outcome = .fileError
      · simp [List.filter_cons, hfe]
        omega
      · simp [List.filter_cons, hfe]

theorem c3_witness :
    enrich_with_abstracts (fun _ => ApiResult.requestError)
        ([[c2rec]] ++ [c6file] :: [[c6file]]) =
      ⟨([[c2rec]].map (fun g =>
          (enrichFile (fun _ => ApiResult.requestError) g).disk)) ++
          (enrichFile (fun _ => ApiResult.requestError) [c6file]).disk ::
            [[c6file]],
        true,
        ([[c2rec]].map (fun g =>
          (enrichFile (fun _ => ApiResult.requestError) g).added)).sum +
          (enrichFile (fun _ => ApiResult.requestError) [c6file]).added,
        ([[c2rec]].filter (fun g => decide
          ((enrichFile (fun _ => ApiResult.requestError) g).outcome =
            .fileError))).length⟩ ∧
    (enrichFile (fun _ => ApiResult.requestError) [c6file]).disk.length =
      [c6file].length := by
  refine c3_request_exception_aborts (fun _ => ApiResult.requestError)
    [[c2rec]] [c6file] [[c6file]] ?_ rfl
  intro g hg
  simp only [List.mem_singleton] at hg
  subst hg
  intro hcon
  have hcon2 : FileOutcome.completed = FileOutcome.apiAbort := hcon
  exact FileOutcome.noConfusion hcon2

/-- The API oracle of the C8 counterexample: 429 for the first file's DOI,
an ordinary 404 for everything else. -/
def c8api : Json → ApiResult := fun doi =>
  match doi with
  | .str "10.1/d1" => .rateLimited
  | _ => .notFound

/-- First file's record in the C8 counterexample (no abstract key). -/
def c8p1 : Json := .obj [("id", .str "r1"), ("title", .str "t1"),
  ("metadata", .obj [("doi", .str "10.1/d1")])]

/-- Second file's record in the C8 counterexample. -/
def c8p2 : Json := .obj [("id", .str "r2"), ("title", .str "t2"),
  ("metadata", .obj [("doi", .str "10.1/d2")])]

/-- The second record after being marked `not available`. -/
def c8p2na : Json := .obj [("id", .str "r2"), ("title", .str "t2"),
  ("metadata", .obj [("doi", .str "10.1/d2"),
    ("abstract_available", .str "not available")])]

/-- C8 (counterexample): with a 429 on the first file's only record,
`enrich_with_abstracts` does NOT abort the entire loop: the plain `Exception`
raised for 429/403 is not a `requests.exceptions.RequestException`, so it is
caught by the per-file handler (app.py line 165) — the first file is skipped
(disk unchanged, error counted), but the second file is still processed: its
record is queried and marked `not available` on disk, and the run returns the
completion payload, refuting "no further files or records are processed". -/
theorem c8_counterexample :
    (enrich_with_abstracts c8api [[c8p1], [c8p2]]).isError = false ∧
    (enrich_with_abstracts c8api [[c8p1], [c8p2]]).errorCount = 1 ∧
    (enrich_with_abstracts c8api [[c8p1], [c8p2]]).disks = [[c8p1], [c8p2na]] ∧
    (enrichFile c8api [c8p2]).queries = [0] :=
  ⟨rfl, rfl, rfl, rfl⟩

/-- C8 (amended): when the lookup endpoint responds 429 or 403,
`get_paper_details` raises a plain rate-limit/auth exception; because that
exception is NOT a `requests.exceptions.RequestException`, it aborts only the
current file (per-file handler, counted in `errors`), and the enclosing loop
continues with the remaining files; every other non-200 status is treated as
"not found" and the record is marked unavailable rather than raising. -/
theorem c8_rate_limit_behavior (api : Json → ApiResult) :
    (∀ (i : Nat) (rest : List Nat) (st : FileState) (doi : Json),
      doiOf (getJ st.papers i) = .ok doi → doi.truthy = true →
      api doi = .rateLimited →
      processWorklist api (i :: rest) st =
        ⟨st.disk, st.queries ++ [i], st.added, .fileError⟩) ∧
    (∀ (f : List Json) (fs : List (List Json)),
      (enrichFile api f).outcome = .fileError →
      enrich_with_abstracts api (f :: fs) =
        ⟨(enrichFile api f).disk :: (enrich_with_abstracts api fs).disks,
          (enrich_with_abstracts api fs).isError,
          (enrichFile api f).added + (enrich_with_abstracts api fs).newAbstracts,
          1 + (enrich_with_abstracts api fs).errorCount⟩) ∧
    (∀ (i : Nat) (rest : List Nat) (st : FileState) (doi p2 : Json),
      doiOf (getJ st.papers i) = .ok doi → doi.truthy = true →
      api doi = .notFound → notAvailableUpdate (getJ st.papers i) = .ok p2 →
      processWorklist api (i :: rest) st = processWorklist api rest
        ⟨setJ st.papers i p2, setJ st.papers i p2,
          st.queries ++ [i], st.added⟩) := by
  refine ⟨?_, ?_, ?_⟩
  · intro i rest st doi hdoi ht ha
    rw [processWorklist, recordStep_rateLimited hdoi ht ha]
  · intro f fs ho
    rw [enrich_cons_continue (by rw [ho]; intro hh; exact FileOutcome.noConfusion hh)]
    rw [ho]
    simp
  · intro i rest st doi p2 hdoi ht ha hupd
    rw [processWorklist, recordStep_notFound hdoi ht ha hupd]
    rfl

theorem c8_witness :
    processWorklist c8api [0] ⟨[c8p1], [c8p1], [], 0⟩ =
      ⟨[c8p1], [] ++ [0], 0, .fileError⟩ ∧
    enrich_with_abstracts c8api ([c8p1] :: [[c8p2]]) =
      ⟨(enrichFile c8api [c8p1]).disk ::
          (enrich_with_abstracts c8api [[c8p2]]).disks,
        (enrich_with_abstracts c8api [[c8p2]]).isError,
        (enrichFile c8api [c8p1]).added +
          (enrich_with_abstracts c8api [[c8p2]]).newAbstracts,
        1 + (enrich_with_abstracts c8api [[c8p2]]).errorCount⟩ ∧
    processWorklist c8api [0] ⟨[c8p2], [c8p2], [], 0⟩ =
      processWorklist c8api [] ⟨setJ [c8p2] 0 c8p2na, setJ [c8p2] 0 c8p2na,
        [] ++ [0], 0⟩ := by
  refine ⟨?_, ?_, ?_⟩
  · exact (c8_rate_limit_behavior c8api).1 0 [] ⟨[c8p1], [c8p1], [], 0⟩
      (.str "10.1/d1") rfl rfl rfl
  · exact (c8_rate_limit_behavior c8api).2.1 [c8p1] [[c8p2]] rfl
  · exact (c8_rate_limit_behavior c8api).2.2 0 [] ⟨[c8p2], [c8p2], [], 0⟩
      (.str "10.1/d2") c8p2na rfl rfl rfl rfl

/-!
## Lemmas about the Indexer's insertion loop (chroma_generator.py)
-/

theorem handlerLog_obj (kvs : List (String × Json)) :
    handlerLog (.obj kvs) = .ok () := rfl

theorem processFrom_nil (addFails : Nat → Bool) (k : Nat) :
    processFrom addFails k [] = .ok [] := rfl

theorem processFrom_cons (addFails : Nat → Bool) (k : Nat) (p : Json)
    (rest : List Json) :
    processFrom addFails k (p :: rest) =
      match paperStep p (addFails k) with
      | .error e => .error e
      | .ok o =>
          match processFrom addFails (k + 1) rest with
          | .error e => .error e
          | .ok os => .ok (o :: os) := rfl

theorem paperStep_obj_ok (kvs : List (String × Json)) (b : Bool) :
    ∃ o, paperStep (.obj kvs) b = .ok o ∧
      (o = .skippedNoId ↔ missingId (.obj kvs) = true) ∧
      (b = true → o ≠ .added) := by
  by_cases hv : ((jLookup kvs "id").getD (.str "")).truthy = true
  · cases hb : paperBody (.obj kvs) with
    | error e =>
        refine ⟨.skippedError, ?_, ?_, fun _ => by simp⟩
        · simp [paperStep, getD_obj, hv, hb, handlerLog_obj]
        · simp [missingId, getD_obj, hv]
    | ok w =>
        cases b with
        | false =>
            refine ⟨.added, ?_, ?_, fun hbt => absurd hbt (by simp)⟩
            · simp [paperStep, getD_obj, hv, hb]
            · simp [missingId, getD_obj, hv]
        | true =>
            refine ⟨.skippedError, ?_, ?_, fun _ => by simp⟩
            · simp [paperStep, getD_obj, hv, hb, handlerLog_obj]
            · simp [missingId, getD_obj, hv]
  · have hv2 : ((jLookup kvs "id").getD (.str "")).truthy = false := by
      simpa using hv
    refine ⟨.skippedNoId, ?_, ?_, fun _ => by simp⟩
    · simp [paperStep, getD_obj, hv2]
    · simp [missingId, getD_obj, hv2]

theorem processFrom_ok (addFails : Nat → Bool) (papers : List Json) :
    ∀ k : Nat, (∀ p ∈ papers, ∃ kvs, p = Json.obj kvs) →
    ∃ outs, processFrom addFails k papers = .ok outs ∧
      outs.length = papers.length ∧
      ∀ j, j < papers.length →
        paperStep (getJ papers j) (addFails (k + j)) = .ok (outs.getD j .added) := by
  induction papers with
  | nil =>
      intro k _
      exact ⟨[], rfl, rfl, fun j hj => absurd hj (Nat.not_lt_zero j)⟩
  | cons p rest ih =>
      intro k h
      obtain ⟨kvs, hp⟩ := h p (List.mem_cons_self p rest)
      subst hp
      obtain ⟨o, ho, _, _⟩ := paperStep_obj_ok kvs (addFails k)
      obtain ⟨outs, houts, hlen, hidx⟩ :=
        ih (k + 1) (fun q hq => h q (List.mem_cons_of_mem _ hq))
      refine ⟨o :: outs, ?_, by simp [hlen], ?_⟩
      · rw [processFrom_cons, ho, houts]
      · intro j hj
        cases j with
        | zero =>
            simp only [getJ, List.getD_cons_zero, Nat.add_zero]
            exact ho
        | succ n =>
            have hn : n < rest.length := by
              simp only [List.length_cons] at hj
              omega
            have hrec := hidx n hn
            simp only [getJ] at hrec ⊢
            simp only [List.getD_cons_succ]
            have hk : k + (n + 1) = k + 1 + n := by omega
            rw [hk]
            exact hrec

/-- C9 (counterexample): on a batch containing a record that is not a dict,
`process_papers` aborts instead of skipping.  For the non-dict record `7` the
body's first operation `paper.get("id", "")` (chroma_generator.py line 133)
raises AttributeError; the per-paper handler catches it, but the handler's
own log line `paper.get('id', 'unknown')` (line 178) raises AttributeError
again, this time uncaught — the loop does not return normally, and the
remaining well-formed record is never attempted. -/
theorem c9_counterexample :
    process_papers (fun _ => false)
      [Json.num 7, Json.obj [("id", .str "a"), ("title", .str "t")]] =
      .error () := rfl

/-- C9 (amended): for every input list whose records are all dicts (JSON
objects) — in particular, everything the Fetcher writes — `process_papers`
skips (without inserting) every record whose id is missing or empty, skips
every record whose processing or insertion raises, and never aborts the
batch: it returns normally with one outcome for every record in order, a
record is skipped as id-less exactly when `paper.get("id", "")` is falsy,
and a record whose insertion raises is never counted as added.  On a record
that is not a dict, however, the per-record except handler's own log line
raises and the exception aborts the batch, leaving the remaining records
unattempted (see the counterexample). -/
theorem c9_amended (addFails : Nat → Bool) (papers : List Json)
    (hobj : ∀ p ∈ papers, ∃ kvs, p = Json.obj kvs) :
    ∃ outs, process_papers addFails papers = .ok outs ∧
      outs.length = papers.length ∧
      (∀ i, i < papers.length →
        (outs.getD i .added = .skippedNoId ↔ missingId (getJ papers i) = true)) ∧
      (∀ i, i < papers.length → addFails i = true →
        outs.getD i .added ≠ .added) := by
  obtain ⟨outs, houts, hlen, hidx⟩ := processFrom_ok addFails papers 0 hobj
  refine ⟨outs, houts, hlen, ?_, ?_⟩
  · intro i hi
    obtain ⟨kvs, hk⟩ := hobj (getJ papers i) (getJ_mem hi)
    obtain ⟨o, ho, hiff, _⟩ := paperStep_obj_ok kvs (addFails i)
    have h0 := hidx i hi
    rw [Nat.zero_add, hk, ho] at h0
    rw [← Except.ok.inj h0, hk]
    exact hiff
  · intro i hi hb
    obtain ⟨kvs, hk⟩ := hobj (getJ papers i) (getJ_mem hi)
    obtain ⟨o, ho, _, hne⟩ := paperStep_obj_ok kvs (addFails i)
    have h0 := hidx i hi
    rw [Nat.zero_add, hk, ho] at h0
    rw [← Except.ok.inj h0]
    exact hne hb

theorem c9_witness :
    ∃ outs, process_papers (fun i => i == 2)
        [Json.obj [("id", .str "a"), ("title", .str "t")],
         Json.obj [("id", .str "")],
         Json.obj [("id", .str "b"), ("title", .str "t2")]] = .ok outs ∧
      outs.length = 3 ∧
      (∀ i, i < 3 →
        (outs.getD i .added = .skippedNoId ↔
          missingId (getJ
            [Json.obj [("id", .str "a"), ("title", .str "t")],
             Json.obj [("id", .str "")],
             Json.obj [("id", .str "b"), ("title", .str "t2")]] i) = true)) ∧
      (∀ i, i < 3 → (i == 2) = true → outs.getD i .added ≠ .added) := by
  exact c9_amended (fun i => i == 2)
    [Json.obj [("id", .str "a"), ("title", .str "t")],
     Json.obj [("id", .str "")],
     Json.obj [("id", .str "b"), ("title", .str "t2")]]
    (by
      intro p hp
      simp only [List.mem_cons, List.not_mem_nil, or_false] at hp
      rcases hp with rfl | rfl | rfl <;> exact ⟨_, rfl⟩)
